import Mathlib

/-!
# A verification model of the tensor-expression compiler core

This file embeds, in Lean 4, the data model and operations of a small
just-in-time tensor-expression compiler (expression/statement IR,
placeholder/buffer model, compute builder, loop nest, external-call node,
interpreter code generator, and the graph-level kernel), together with the
graph-rewrite linear-fusion pass, and proves the documented testable
properties about them.

The compiler itself is C++ code that is not part of the checked-in sources
(only its Python test harness is), so the definitions below are modelled
from the specification document and from the shape of the test harness.
Scalar values are modelled as exact rationals with an explicit NaN element
(an `Option`), abstracting IEEE rounding: properties stated with a numeric
tolerance in the specification are proved as exact equalities in this
model, which implies agreement within any nonnegative tolerance.
-/

namespace TE

/-- A scalar runtime value: `none` models NaN, `some q` an ordinary number
(exact rationals stand in for floating-point values). -/
abbrev Val := Option ℚ

/-- Addition with NaN propagation. -/
def vadd : Val → Val → Val
  | some a, some b => some (a + b)
  | _, _ => none

/-- Subtraction with NaN propagation. -/
def vsub : Val → Val → Val
  | some a, some b => some (a - b)
  | _, _ => none

/-- Multiplication with NaN propagation. -/
def vmul : Val → Val → Val
  | some a, some b => some (a * b)
  | _, _ => none

/-- The NaN-test predicate, returning 1 on NaN and 0 otherwise. -/
def visnan : Val → Val
  | none => some 1
  | some _ => some 0

/-- Branchless select: a NaN condition poisons the result, a nonzero
condition picks the first branch, zero the second. -/
def vselect : Val → Val → Val → Val
  | none, _, _ => none
  | some c, a, b => if c = 0 then b else a

/-- Finite sum `f 0 + ... + f (k-1)` with NaN propagation. -/
def vsum : Nat → (Nat → Val) → Val
  | 0, _ => some 0
  | k + 1, f => vadd (vsum k f) (f k)

/-- Modelled from the spec: the enumerated scalar dtype attached to every
expression and buffer. Only the dtypes exercised by the kernels under
study are listed. -/
inductive Dtype where
  | Float
  | Double
  | Int
deriving DecidableEq, Repr

/-- Modelled from the spec: an index-position expression — either a loop
/ symbolic-dimension variable reference (by its internal identity, a `Nat`:
variables are identified by identity, not display name) or an integer
literal. Buffer-access indices and loop bounds in the nests this model
builds are always of this restricted form. -/
inductive IdxE where
  | ivar (j : Nat)
  | iconst (n : Nat)
deriving DecidableEq, Repr

/-- Modelled from the spec: the scalar expression tree of the IR — literals,
variable references, buffer loads, arithmetic, branchless conditional and
the NaN-test builder. Buffers are identified by internal identity (`Nat`). -/
inductive Expr where
  | imm (q : ℚ)
  | evar (j : Nat)
  | load (buf : Nat) (idxs : List IdxE)
  | add (a b : Expr)
  | sub (a b : Expr)
  | mul (a b : Expr)
  | ifThenElse (c a b : Expr)
  | isnan (a : Expr)
deriving Repr

/-- Modelled from the spec: a runtime buffer — concrete dimension extents,
dtype, and the element at each flat (row-major) memory position. -/
structure Buf where
  shape : List Nat
  dtype : Dtype
  data : Nat → Val

/-- A host tensor handed to the typed call path; structurally identical to
a runtime buffer. -/
abbrev Tensor := Buf

/-- Scalar-variable environment: internal variable identity to value. -/
abbrev VEnv := Nat → ℚ

/-- Buffer environment: internal buffer identity to runtime buffer. -/
abbrev BEnv := Nat → Option Buf

/-- Row-major flattening of a multi-index against a shape. -/
def flatten : List Nat → List Nat → Nat
  | _ :: ds, i :: is => i * ds.prod + flatten ds is
  | _, _ => 0

/-- Row-major unflattening of a flat position against a shape. -/
def unflatten : List Nat → Nat → List Nat
  | [], _ => []
  | _ :: ds, p => p / ds.prod :: unflatten ds (p % ds.prod)

/-- Convert a rational scalar to a nonnegative integer index, failing on
fractional or negative values. -/
def toIdx (q : ℚ) : Option Nat :=
  if 0 ≤ q.num ∧ q.den = 1 then some q.num.toNat else none

/-- Evaluate an index-position expression. -/
def evalIdx (ve : VEnv) : IdxE → Option Nat
  | .ivar j => toIdx (ve j)
  | .iconst n => some n

/-- Evaluate a scalar expression; `none` is an evaluation error (distinct
from a NaN value, which is `some none`). -/
def evalExpr (ve : VEnv) (be : BEnv) : Expr → Option Val
  | .imm q => some (some q)
  | .evar j => some (some (ve j))
  | .load b idxs => do
      let buf ← be b
      let ns ← idxs.mapM (evalIdx ve)
      pure (buf.data (flatten buf.shape ns))
  | .add a b => do pure (vadd (← evalExpr ve be a) (← evalExpr ve be b))
  | .sub a b => do pure (vsub (← evalExpr ve be a) (← evalExpr ve be b))
  | .mul a b => do pure (vmul (← evalExpr ve be a) (← evalExpr ve be b))
  | .ifThenElse c a b => do
      pure (vselect (← evalExpr ve be c) (← evalExpr ve be a) (← evalExpr ve be b))
  | .isnan a => do pure (visnan (← evalExpr ve be a))

/-- Modelled from the spec: the structured statement tree — stores, loops,
sequencing, and the external-call escape hatch into the host runtime's
operator dispatch. -/
inductive Stmt where
  | store (buf : Nat) (idxs : List IdxE) (value : Expr)
  | forLoop (v : Nat) (lo hi : IdxE) (body : Stmt)
  | seq (a b : Stmt)
  | nop
  | externalCall (out : Nat) (op : String) (ins : List Nat) (args : List Expr)
deriving Repr

/-- Update a scalar environment at one variable identity. -/
def updV (ve : VEnv) (j : Nat) (q : ℚ) : VEnv :=
  fun k => if k = j then q else ve k

/-- Update a buffer environment at one buffer identity. -/
def updB (be : BEnv) (n : Nat) (b : Buf) : BEnv :=
  fun m => if m = n then some b else be m

/-- Write one flat position of a data function. -/
def setAt (d : Nat → Val) (p : Nat) (v : Val) : Nat → Val :=
  fun k => if k = p then v else d k

/-- Modelled from the spec: the host tensor runtime's matrix multiply,
reachable only through external-call dispatch (2-D case). -/
def hostMatmul : List Buf → Option Buf
  | [a, b] =>
      match a.shape, b.shape with
      | [m, k], [k2, n] =>
          if k2 = k then
            some ⟨[m, n], a.dtype,
              fun p => vsum k (fun t => vmul (a.data (p / n * k + t)) (b.data (t * n + p % n)))⟩
          else none
      | _, _ => none
  | _ => none

/-- Modelled from the spec: the registry of host-runtime operators
reachable from an external-call node. -/
def externalFns (op : String) : Option (List Buf → Option Buf) :=
  if op = "nnc_aten_matmul" then some hostMatmul else none

/-- Run a monadic step over the index range `[start, start + count)`. -/
def iterM (f : Nat → BEnv → Option BEnv) : Nat → Nat → BEnv → Option BEnv
  | _, 0, be => some be
  | s, c + 1, be => do iterM f (s + 1) c (← f s be)

/-- Modelled from the spec: the interpreter backend — a tree-walking
evaluator over the statement tree against concrete memory and
symbolic-dimension values. -/
def execStmt (ve : VEnv) : Stmt → BEnv → Option BEnv
  | .store name idxs e, be => do
      let buf ← be name
      let ns ← idxs.mapM (evalIdx ve)
      let v ← evalExpr ve be e
      pure (updB be name ⟨buf.shape, buf.dtype, setAt buf.data (flatten buf.shape ns) v⟩)
  | .forLoop j lo hi body, be => do
      let l ← evalIdx ve lo
      let h ← evalIdx ve hi
      iterM (fun i b => execStmt (updV ve j i) body b) l (h - l) be
  | .seq s t, be => do
      let be1 ← execStmt ve s be
      execStmt ve t be1
  | .nop, be => some be
  | .externalCall out op ins _args, be => do
      let f ← externalFns op
      let inBufs ← ins.mapM be
      let res ← f inBufs
      let outBuf ← be out
      pure (updB be out ⟨outBuf.shape, outBuf.dtype, res.data⟩)
termination_by s _ => sizeOf s

/-! ## Index arithmetic -/
/-- A multi-index is valid for a shape when it is pointwise in bounds. -/
def validIdx (ns is : List Nat) : Prop :=
  List.Forall₂ (fun n i => i < n) ns is

/-! ## The compute builder and its loop-nest semantics -/
/-- Two scalar environments agree outside a set of loop-variable ids. -/
def agreesOff (f g : VEnv) (l : List Nat) : Prop :=
  ∀ k, k ∉ l → f k = g k

/-- Two buffer environments agree away from the output buffer. -/
def agreesOffB (b b0 : BEnv) (out : Nat) : Prop :=
  ∀ m, m ≠ out → b m = b0 m

/-- The dimension extents of a nest evaluate to the given concrete sizes. -/
def ExtEval (f : VEnv) (S : List (IdxE × Nat)) (ns : List Nat) : Prop :=
  List.Forall₂ (fun d n => evalIdx f d.1 = some n) S ns

/-- The loop variables of a nest are bound to the given index values. -/
def IdxBind (f : VEnv) (S : List (IdxE × Nat)) (is : List Nat) : Prop :=
  List.Forall₂ (fun d i => f d.2 = ((i : Nat) : ℚ)) S is

/-- Wrap an innermost statement in one counted loop per dimension, in
order — the loop skeleton produced by the compute builder. -/
def nestOf (S : List (IdxE × Nat)) (K : Stmt) : Stmt :=
  S.foldr (fun d s => .forLoop d.2 (.iconst 0) d.1 s) K

/-! ## The pipeline: compute builder, loop nest, simplifier, code generator -/
/-- Modelled from the spec: the compute builder — given an output buffer,
one dimension argument (extent, loop-variable identity) per output
dimension, and a body mapping the index tuple to an expression, it
synthesizes a store nested inside one loop per dimension, in order. -/
def computeStmt (out : Nat) (dims : List (IdxE × Nat)) (body : List IdxE → Expr) : Stmt :=
  nestOf dims (.store out (dims.map (fun d => IdxE.ivar d.2))
    (body (dims.map (fun d => IdxE.ivar d.2))))

/-- Modelled from the spec: a declared buffer (placeholder) — internal
identity, dimension extents (literal or symbolic), dtype. -/
structure BufDecl where
  name : Nat
  shape : List IdxE
  dtype : Dtype

/-- The result of the compute builder: an output buffer declaration
together with the synthesized statement. -/
structure CTensor where
  buf : BufDecl
  stmt : Stmt

/-- The public compute-builder operation. -/
def Compute (out : Nat) (dims : List (IdxE × Nat)) (dt : Dtype)
    (body : List IdxE → Expr) : CTensor :=
  ⟨⟨out, dims.map Prod.fst, dt⟩, computeStmt out dims body⟩

/-- Modelled from the spec: the loop nest owning the statement tree built
from the per-output compute statements. -/
structure LoopNest where
  root : Stmt

/-- Assemble one loop nest from a list of computed tensors. -/
def LoopNest.ofTensors (ts : List CTensor) : LoopNest :=
  ⟨ts.foldr (fun t s => .seq t.stmt s) .nop⟩

/-- Modelled from the spec: the normalization pass run exactly once before
code generation.  The nests this model builds are already in the normal
form the code generator accepts, so normalization is the identity here. -/
def LoopNest.prepareForCodegen (ln : LoopNest) : LoopNest := ln

/-- Smart add constructor folding literal operands. -/
def mkAdd : Expr → Expr → Expr
  | .imm x, .imm y => .imm (x + y)
  | a, b => .add a b

/-- Smart subtract constructor folding literal operands. -/
def mkSub : Expr → Expr → Expr
  | .imm x, .imm y => .imm (x - y)
  | a, b => .sub a b

/-- Smart multiply constructor folding literal operands. -/
def mkMul : Expr → Expr → Expr
  | .imm x, .imm y => .imm (x * y)
  | a, b => .mul a b

/-- Modelled from the spec: local algebraic simplification (constant
folding) over expressions; invocable any number of times. -/
def simplifyExpr : Expr → Expr
  | .add a b => mkAdd (simplifyExpr a) (simplifyExpr b)
  | .sub a b => mkSub (simplifyExpr a) (simplifyExpr b)
  | .mul a b => mkMul (simplifyExpr a) (simplifyExpr b)
  | .ifThenElse c a b => .ifThenElse (simplifyExpr c) (simplifyExpr a) (simplifyExpr b)
  | .isnan a => .isnan (simplifyExpr a)
  | e => e

/-- Simplification mapped over a statement tree. -/
def simplifyStmt : Stmt → Stmt
  | .store b i v => .store b i (simplifyExpr v)
  | .forLoop j lo hi s => .forLoop j lo hi (simplifyStmt s)
  | .seq a b => .seq (simplifyStmt a) (simplifyStmt b)
  | .nop => .nop
  | .externalCall o op i a => .externalCall o op i (a.map simplifyExpr)

/-! ## The code generator artifact and its two invocation forms -/
/-- A code-generator parameter: a buffer argument or a bare symbolic
dimension variable. -/
inductive CgParam where
  | bufArg (b : BufDecl)
  | varArg (j : Nat)

/-- Modelled from the spec: the codegen artifact — a finalized statement
tree bound to an ordered parameter list. -/
structure Codegen where
  stmt : Stmt
  params : List CgParam

/-- Modelled from the spec: code-generator construction; the interpreter
backend is always available, a compiled backend is conditionally available
(absent in this model). -/
def constructCodegen (backend : String) (s : Stmt) (params : List CgParam) : Option Codegen :=
  if backend = "ir_eval" then some ⟨s, params⟩ else none

/-- A typed call-time argument: a host tensor or a scalar dimension value. -/
inductive CArg where
  | tensor (t : Tensor)
  | scalar (n : Nat)

/-- A raw call-time argument: a pre-extracted memory address (modelled as
the tensor's data map) or a scalar value. -/
inductive RawArg where
  | ptr (d : Nat → Val)
  | scalar (n : Nat)

/-- Extraction of the raw memory address / scalar from a typed argument. -/
def extractRaw : CArg → RawArg
  | .tensor t => .ptr t.data
  | .scalar n => .scalar n

/-- The empty scalar environment. -/
def emptyV : VEnv := fun _ => 0

/-- The empty buffer environment. -/
def emptyB : BEnv := fun _ => none

/-- Typed-call argument processing: validates dtype and rank of each
tensor against the corresponding declared buffer and binds buffers and
scalar dimension variables in parameter order. -/
def callTypedAux : List CgParam → List CArg → VEnv → BEnv → Option (VEnv × BEnv)
  | [], [], ve, be => some (ve, be)
  | .bufArg dcl :: ps, .tensor t :: rest, ve, be =>
      if t.dtype = dcl.dtype ∧ t.shape.length = dcl.shape.length then
        callTypedAux ps rest ve (updB be dcl.name ⟨t.shape, t.dtype, t.data⟩)
      else none
  | .varArg j :: ps, .scalar n :: rest, ve, be =>
      callTypedAux ps rest (updV ve j (n : ℚ)) be
  | _, _, _, _ => none

/-- Modelled from the spec: the validated typed call — extracts raw memory
and dimension values from host tensors, validates dtype/rank against the
declared parameter list, then executes the statement tree. -/
def Codegen.call (cg : Codegen) (args : List CArg) : Option BEnv := do
  let (ve, be) ← callTypedAux cg.params args emptyV emptyB
  execStmt ve cg.stmt be

/-- First raw-call pass: bind the scalar dimension values. -/
def rawScalars : List CgParam → List RawArg → VEnv → Option VEnv
  | [], [], ve => some ve
  | .bufArg _ :: ps, .ptr _ :: rest, ve => rawScalars ps rest ve
  | .varArg j :: ps, .scalar n :: rest, ve => rawScalars ps rest (updV ve j (n : ℚ))
  | _, _, _ => none

/-- Second raw-call pass: bind each declared buffer to the supplied memory,
resolving symbolic extents against the scalar bindings. -/
def rawBufs (ve : VEnv) : List CgParam → List RawArg → BEnv → Option BEnv
  | [], [], be => some be
  | .bufArg dcl :: ps, .ptr dptr :: rest, be => do
      let sh ← dcl.shape.mapM (evalIdx ve)
      rawBufs ve ps rest (updB be dcl.name ⟨sh, dcl.dtype, dptr⟩)
  | .varArg _ :: ps, .scalar _ :: rest, be => rawBufs ve ps rest be
  | _, _, _ => none

/-- Modelled from the spec: the raw call — takes already-extracted memory
addresses and scalar values with no validation and executes the statement
tree. -/
def Codegen.callRaw (cg : Codegen) (args : List RawArg) : Option BEnv := do
  let ve ← rawScalars cg.params args emptyV
  let be ← rawBufs ve cg.params args emptyB
  execStmt ve cg.stmt be

/-! ## The adder artifact of the test harness -/
/-- Modelled from the spec: the host runtime's elementwise add. -/
def hostAdd (a b : Buf) : Buf :=
  ⟨a.shape, a.dtype, fun p => vadd (a.data p) (b.data p)⟩

/-- The adder body: the sum of the two input loads at the loop index. -/
def adderBody (idx : List IdxE) : Expr :=
  .add (.load 0 idx) (.load 1 idx)

/-- The adder artifact built by the harness: placeholders A (identity 0)
and B (identity 1) of extent n, output C (identity 2) computed as
`C[i] = A[i] + B[i]`, loop nest prepared, simplified, and handed to the
interpreter backend. -/
def constructAdder (n : Nat) (dt : Dtype) : Option Codegen :=
  let dN := IdxE.iconst n
  let pA : BufDecl := ⟨0, [dN], dt⟩
  let pB : BufDecl := ⟨1, [dN], dt⟩
  let tC := Compute 2 [(dN, 0)] dt adderBody
  let ln := (LoopNest.ofTensors [tC]).prepareForCodegen
  constructCodegen "ir_eval" (simplifyStmt ln.root) [.bufArg pA, .bufArg pB, .bufArg tC.buf]

/-- The buffer environment the adder's typed call builds: inputs at
identities 0 and 1, output at identity 2, all of extent n. -/
def adderEnv (n : Nat) (dt : Dtype) (dA dB dC0 : Nat → Val) : BEnv :=
  updB (updB (updB emptyB 0 ⟨[n], dt, dA⟩) 1 ⟨[n], dt, dB⟩) 2 ⟨[n], dt, dC0⟩

/-! ## The dynamic-shape artifact of the test harness -/
/-- The dynamic-shape body: the difference of the two input loads. -/
def dynSubBody (idx : List IdxE) : Expr :=
  .sub (.load 0 idx) (.load 1 idx)

/-- The dynamic-shape artifact: buffers A (identity 0), B (identity 1) and
output C (identity 2) all of symbolic extent dN (variable identity 1);
`C[i] = A[i] - B[i]`; dN is passed as a call-time scalar parameter.  The
artifact is a single fixed value — it is built once, and every concrete
extent below is supplied at call time only. -/
def dynCodegen : Option Codegen :=
  let pA : BufDecl := ⟨0, [.ivar 1], .Double⟩
  let pB : BufDecl := ⟨1, [.ivar 1], .Double⟩
  let tC := Compute 2 [(.ivar 1, 0)] .Double dynSubBody
  let ln := (LoopNest.ofTensors [tC]).prepareForCodegen
  constructCodegen "ir_eval" (simplifyStmt ln.root)
    [.bufArg pA, .bufArg pB, .bufArg tC.buf, .varArg 1]

/-- The buffer environment the dynamic-shape typed call builds. -/
def dynEnv (m : Nat) (dA dB dC0 : Nat → Val) : BEnv :=
  updB (updB (updB emptyB 0 ⟨[m], .Double, dA⟩) 1 ⟨[m], .Double, dB⟩)
    2 ⟨[m], .Double, dC0⟩

/-! ## The external-call artifact of the test harness -/
/-- A loop nest built directly over a given root statement. -/
def LoopNest.ofStmt (s : Stmt) : LoopNest := ⟨s⟩

/-- The external-call artifact: a single external-call node dispatching
to the host runtime operator named nnc_aten_matmul, with output C
(identity 2), inputs A (identity 0, shape m by k) and B (identity 1,
shape k by n), and an empty scalar-argument list. -/
def extMatmulCodegen (m k n : Nat) : Option Codegen :=
  let pA : BufDecl := ⟨0, [.iconst m, .iconst k], .Float⟩
  let pB : BufDecl := ⟨1, [.iconst k, .iconst n], .Float⟩
  let pC : BufDecl := ⟨2, [.iconst m, .iconst n], .Float⟩
  let s : Stmt := .externalCall 2 "nnc_aten_matmul" [0, 1] []
  let ln := (LoopNest.ofStmt s).prepareForCodegen
  constructCodegen "ir_eval" ln.root [.bufArg pA, .bufArg pB, .bufArg pC]

/-! ## Raw call versus typed call -/
/-- Each tensor argument's shape agrees with the corresponding declared
buffer shape resolved against the given scalar bindings (the stable-shape
precondition of the unvalidated raw-call form). -/
def shapesAgreeB (veF : VEnv) : List CgParam → List CArg → Bool
  | [], [] => true
  | .bufArg dcl :: ps, .tensor t :: rest =>
      decide (dcl.shape.mapM (evalIdx veF) = some t.shape) && shapesAgreeB veF ps rest
  | .varArg _ :: ps, .scalar _ :: rest => shapesAgreeB veF ps rest
  | _, _ => false

/-- The stable-shape precondition, checked against the scalar bindings the
raw call itself would compute. -/
def rawShapesOk (cg : Codegen) (args : List CArg) : Bool :=
  match rawScalars cg.params (args.map extractRaw) emptyV with
  | some ve => shapesAgreeB ve cg.params args
  | none => true

/-! ## The graph-level kernel over the covered graph shapes -/
/-- Modelled from the spec: the graph shapes covered by the run/fallback
agreement property — an elementwise add chain of k inputs, 2-D transpose,
general permute, broadcasting expand, and the custom-lowered
NaN-replacement operator. -/
inductive CoveredGraph where
  | addChain (shape : List Nat) (k : Nat)
  | transpose (m n : Nat)
  | permute (shape : List Nat) (perm : List Nat)
  | expand (shape sizes : List Nat)
  | nanToNum (shape : List Nat)

/-- The number of graph inputs. -/
def kIns : CoveredGraph → Nat
  | .addChain _ k => k
  | _ => 1

/-- The declared output shape of the graph. -/
def kDims : CoveredGraph → List Nat
  | .addChain shape _ => shape
  | .transpose m n => [n, m]
  | .permute shape perm => perm.map (fun j => shape.getD j 0)
  | .expand _ sizes => sizes
  | .nanToNum shape => shape

/-- The add-chain lowering body over inputs 0..j: sequential adds exactly
as the per-node lowering emits them. -/
def chainExpr : Nat → List IdxE → Expr
  | 0, idxs => .load 0 idxs
  | j + 1, idxs => .add (chainExpr j idxs) (.load (j + 1) idxs)

/-- Modelled from the spec: the per-operator lowering — native elementwise
lowering for adds, index-remapping compute bodies for transpose, permute
and broadcast expand, and the user-supplied custom lowering (branchless
NaN test) for the NaN-replacement operator. -/
def kBody : CoveredGraph → List IdxE → Expr
  | .addChain _ k => fun idxs => chainExpr (k - 1) idxs
  | .transpose _ _ => fun idxs =>
      .load 0 [idxs.getD 1 (.iconst 0), idxs.getD 0 (.iconst 0)]
  | .permute shape perm => fun idxs =>
      .load 0 ((List.range shape.length).map
        (fun q => idxs.getD (perm.indexOf q) (.iconst 0)))
  | .expand shape _ => fun idxs =>
      .load 0 ((List.range shape.length).map
        (fun q => if shape.getD q 0 = 1 then IdxE.iconst 0 else idxs.getD q (.iconst 0)))
  | .nanToNum _ => fun idxs =>
      .ifThenElse (.isnan (.load 0 idxs)) (.imm 0) (.load 0 idxs)

/-- The declared input buffers of the graph (identities 0..k-1). -/
def inputDecls : CoveredGraph → List BufDecl
  | .addChain shape k => (List.range k).map (fun j => ⟨j, shape.map .iconst, .Float⟩)
  | .transpose m n => [⟨0, [.iconst m, .iconst n], .Float⟩]
  | .permute shape _ => [⟨0, shape.map .iconst, .Float⟩]
  | .expand shape _ => [⟨0, shape.map .iconst, .Float⟩]
  | .nanToNum shape => [⟨0, shape.map .iconst, .Float⟩]

/-- Modelled from the spec: kernel compilation — per-node lowering into
one compute nest, loop-nest assembly and normalization, simplification,
and interpreter-backend code generation, with the graph inputs followed by
the output as the parameter list. -/
def kernelCompile (g : CoveredGraph) : Option Codegen :=
  let r := (kDims g).length
  let dims := List.zip ((kDims g).map IdxE.iconst) (List.range r)
  let tOut := Compute (kIns g) dims .Float (kBody g)
  let ln := (LoopNest.ofTensors [tOut]).prepareForCodegen
  constructCodegen "ir_eval" (simplifyStmt ln.root)
    ((inputDecls g).map .bufArg ++ [.bufArg tOut.buf])

/-- Modelled from the spec: `run` — execute the compiled artifact on the
inputs and read back the declared output. -/
def kernelRun (g : CoveredGraph) (ins : List Buf) : Option Buf := do
  let cg ← kernelCompile g
  let be ← cg.call (ins.map .tensor ++ [.tensor ⟨kDims g, .Float, fun _ => some 0⟩])
  be (kIns g)

/-- Modelled from the spec: the host runtime's sequential add chain —
`res 0 = in 0`, `res (j+1) = add (res j) (in (j+1))`, one host add per
graph node. -/
def hostAddN : Nat → List Buf → Buf
  | 0, ins => ins.getD 0 ⟨[], .Float, fun _ => none⟩
  | j + 1, ins => hostAdd (hostAddN j ins) (ins.getD (j + 1) ⟨[], .Float, fun _ => none⟩)

/-- Modelled from the spec: the host runtime's 2-D transpose. -/
def hostTranspose (a : Buf) : Buf :=
  match a.shape with
  | [m, n] => ⟨[n, m], a.dtype, fun p => a.data ((p % m) * n + p / m)⟩
  | _ => a

/-- Modelled from the spec: the host runtime's permute. -/
def hostPermute (a : Buf) (perm : List Nat) : Buf :=
  let outShape := perm.map (fun j => a.shape.getD j 0)
  ⟨outShape, a.dtype, fun p =>
    a.data (flatten a.shape ((List.range a.shape.length).map
      (fun q => (unflatten outShape p).getD (perm.indexOf q) 0)))⟩

/-- Modelled from the spec: the host runtime's broadcasting expand. -/
def hostExpand (a : Buf) (sizes : List Nat) : Buf :=
  ⟨sizes, a.dtype, fun p =>
    a.data (flatten a.shape ((List.range a.shape.length).map
      (fun q => if a.shape.getD q 0 = 1 then 0 else (unflatten sizes p).getD q 0)))⟩

/-- Modelled from the spec: the host runtime's NaN replacement. -/
def hostNanToNum (a : Buf) : Buf :=
  ⟨a.shape, a.dtype, fun p =>
    match a.data p with
    | none => some 0
    | some x => some x⟩

/-- Modelled from the spec: `fallback` — re-execute the original graph
node by node through the host runtime's normal operator dispatch,
bypassing the compiler entirely. -/
def kernelFallback : CoveredGraph → List Buf → Option Buf
  | .addChain _ k, ins => if ins.length = k ∧ 0 < k then some (hostAddN (k - 1) ins) else none
  | .transpose _ _, [a] => some (hostTranspose a)
  | .permute _ perm, [a] => some (hostPermute a perm)
  | .expand _ sizes, [a] => some (hostExpand a sizes)
  | .nanToNum _, [a] => some (hostNanToNum a)
  | _, _ => none

/-- Input well-formedness for each covered graph shape. -/
def wfInputs : CoveredGraph → List Buf → Bool
  | .addChain shape k, ins =>
      decide (ins.length = k) && decide (0 < k) &&
        ins.all (fun b => decide (b.shape = shape) && decide (b.dtype = .Float))
  | .transpose m n, ins =>
      match ins with
      | [a] => decide (a.shape = [m, n]) && decide (a.dtype = .Float)
      | _ => false
  | .permute shape perm, ins =>
      match ins with
      | [a] => decide (a.shape = shape) && decide (a.dtype = .Float) &&
          decide (List.Perm perm (List.range shape.length))
      | _ => false
  | .expand shape sizes, ins =>
      match ins with
      | [a] => decide (a.shape = shape) && decide (a.dtype = .Float) &&
          decide (shape.length = sizes.length) &&
          decide (∀ q, q < shape.length →
            shape.getD q 0 = sizes.getD q 0 ∨ shape.getD q 0 = 1)
      | _ => false
  | .nanToNum shape, ins =>
      match ins with
      | [a] => decide (a.shape = shape) && decide (a.dtype = .Float)
      | _ => false

/-- The fixed numerical tolerance of the run/fallback comparison. -/
def atol : ℚ := 2 / 1000

/-- Two scalar values agree within the tolerance (NaN agrees with NaN). -/
def closeVal : Val → Val → Prop
  | some a, some b => |a - b| ≤ atol
  | none, none => True
  | _, _ => False

/-- Bind a list of (declaration, runtime buffer) pairs into an
environment, in order. -/
def bindTensors (prs : List (BufDecl × Buf)) (be : BEnv) : BEnv :=
  prs.foldl (fun b pr => updB b pr.1.name pr.2) be

/-- The out-of-range default buffer. -/
def dfltBuf : Buf := ⟨[], .Float, fun _ => none⟩

/-! ## Kernel construction and shape annotation -/
/-- The kind of a graph input. -/
inductive InputKind where
  | tensorParam
  | moduleSelf
deriving DecidableEq

/-- Modelled from the spec: a graph input — its kind and its optional
shape/dtype annotation. -/
structure GraphInput where
  kind : InputKind
  ty : Option (List Nat × Dtype)
deriving DecidableEq

/-- Modelled from the spec: the captured graph seen by kernel
construction, reduced to its input interface. -/
structure JitGraph where
  inputs : List GraphInput
deriving DecidableEq

/-- The error taxonomy of kernel construction. -/
inductive KernelError where
  | shapeInference
  | unsupportedConstruct
  | arityMismatch
deriving DecidableEq

/-- A constructed kernel. -/
structure TEKernel where
  graph : JitGraph

/-- Modelled from the spec: TensorExprKernel construction — fails with a
shape-inference error when any graph input lacks shape metadata, with an
unsupported-construct error on an unremoved module-context parameter, and
succeeds otherwise. -/
def mkTensorExprKernel (g : JitGraph) : Except KernelError TEKernel :=
  if g.inputs.any (fun i => i.ty.isNone) then .error .shapeInference
  else if g.inputs.any (fun i => decide (i.kind = .moduleSelf)) then
    .error .unsupportedConstruct
  else .ok ⟨g⟩

/-- Modelled from the spec: the shape-annotation utility — writes each
input's shape/dtype from the corresponding example tensor; fails on arity
mismatch or when an input is a module-context parameter whose shape cannot
be set. -/
def annotateInputShapes (g : JitGraph) (exs : List Tensor) : Except KernelError JitGraph :=
  if g.inputs.length ≠ exs.length then .error .arityMismatch
  else if g.inputs.any (fun i => decide (i.kind = .moduleSelf)) then
    .error .unsupportedConstruct
  else .ok ⟨(g.inputs.zip exs).map (fun pr => ⟨pr.1.kind, some (pr.2.shape, pr.2.dtype)⟩)⟩

/-! ## The linear-fusion graph rewrite -/
/-- A graph node as seen by the rewrite passes: operator kind and the
source-location (provenance) metadata attached at construction. -/
structure RNode where
  kind : String
  srcRange : Nat
deriving DecidableEq

/-- Modelled from the spec: the linear-fusion rewrite — replaces the
traced functional-linear pattern (weight transpose, matmul, optional
in-place bias add) with a single aten::linear node carrying the source
location of the original matmul node; all other nodes are left
unchanged. -/
def fuseLinear : List RNode → List RNode
  | a :: b :: c :: rest =>
      if a.kind = "aten::t" ∧ b.kind = "aten::matmul" ∧ c.kind = "aten::add_" then
        ⟨"aten::linear", b.srcRange⟩ :: fuseLinear rest
      else if a.kind = "aten::t" ∧ b.kind = "aten::matmul" then
        ⟨"aten::linear", b.srcRange⟩ :: fuseLinear (c :: rest)
      else
        a :: fuseLinear (b :: c :: rest)
  | [a, b] =>
      if a.kind = "aten::t" ∧ b.kind = "aten::matmul" then
        [⟨"aten::linear", b.srcRange⟩]
      else [a, b]
  | l => l
termination_by l => l.length

/-- Modelled from the spec: the host runtime's matmul shape rule (2-D and
batched 3-D), used to express that a model still runs. -/
def matmulOutShape : List Nat → List Nat → Option (List Nat)
  | [m, k], [k2, n] => if k = k2 then some [m, n] else none
  | [b, m, k], [b2, k2, n] => if b = b2 ∧ k = k2 then some [b, m, n] else none
  | _, _ => none

/-- Modelled from the spec: running a traced single-node matmul model on
inputs of the given shapes succeeds exactly when the shapes are
matmul-compatible. -/
def graphRuns (g : List RNode) (s1 s2 : List Nat) : Bool :=
  match g with
  | [nd] => if nd.kind = "aten::matmul" then (matmulOutShape s1 s2).isSome else false
  | _ => false

/-! ## Kernel-arena scope discipline -/
/-- Modelled from the spec: the process-wide arena state — whether a
kernel scope is currently active. -/
structure KernelScopeState where
  active : Bool
deriving DecidableEq

/-- Arena-misuse errors. -/
inductive ArenaError where
  | noActiveScope
deriving DecidableEq

/-- An allocated scalar-variable IR handle. -/
structure VarH where
  name : String
  dtype : Dtype

/-- Modelled from the spec: IR-handle allocation — constructing a
VarHandle requires an active kernel-arena scope; outside one it raises an
error rather than returning a usable handle. -/
def mkVarHandle (st : KernelScopeState) (nm : String) (dt : Dtype) :
    Except ArenaError VarH :=
  if st.active then .ok ⟨nm, dt⟩ else .error .noActiveScope

/-! ## Placeholder construction dtype validation -/
/-- The dtype argument of Placeholder construction: omitted, a dtype
value, or a dtype name to be parsed. -/
inductive DtypeArg where
  | omitted
  | given (d : Dtype)
  | fromString (s : String)

/-- Modelled from the spec: the mapping from scalar-type names to dtypes;
names outside the table are invalid. -/
def parseDtype (s : String) : Option Dtype :=
  if s = "float32" then some .Float
  else if s = "float64" then some .Double
  else if s = "int32" then some .Int
  else none

/-- Placeholder construction errors. -/
inductive TEConstructionError where
  | typeError
deriving DecidableEq

/-- Modelled from the spec: Placeholder construction — a dtype argument
that does not name a valid scalar type raises a type error immediately at
the point of construction; a valid or omitted dtype succeeds. -/
def mkPlaceholder (dims : List IdxE) (dt : DtypeArg) :
    Except TEConstructionError BufDecl :=
  match dt with
  | .omitted => .ok ⟨0, dims, .Float⟩
  | .given d => .ok ⟨0, dims, d⟩
  | .fromString s =>
      match parseDtype s with
      | some d => .ok ⟨0, dims, d⟩
      | none => .error .typeError

/-! ## Theorems -/

theorem validIdx_nil : validIdx [] is ↔ is = [] := by
  simp [validIdx, List.forall₂_nil_left_iff]

theorem validIdx_cons :
    validIdx (n :: ns) is ↔ ∃ i tl, is = i :: tl ∧ i < n ∧ validIdx ns tl := by
  constructor
  · intro h
    cases h with
    | cons hh ht => exact ⟨_, _, rfl, hh, ht⟩
  · rintro ⟨i, tl, rfl, hh, ht⟩
    exact List.Forall₂.cons hh ht

theorem flatten_cons :
    flatten (n :: ns) (i :: is) = i * ns.prod + flatten ns is := rfl

/-- Division/remainder uniqueness for bounded remainders. -/
theorem mul_add_inj {P i j a b : Nat} (ha : a < P) (hb : b < P)
    (h : i * P + a = j * P + b) : i = j ∧ a = b := by
  have hP : 0 < P := Nat.lt_of_le_of_lt (Nat.zero_le _) ha
  have hdiv : i = j := by
    have h1 : (P * i + a) / P = i := by
      rw [Nat.mul_add_div hP, Nat.div_eq_of_lt ha, Nat.add_zero]
    have h2 : (P * j + b) / P = j := by
      rw [Nat.mul_add_div hP, Nat.div_eq_of_lt hb, Nat.add_zero]
    rw [← h1, ← h2, Nat.mul_comm P i, Nat.mul_comm P j]
    exact congrArg (· / P) h
  refine ⟨hdiv, ?_⟩
  subst hdiv
  omega

theorem flatten_lt {ns is : List Nat} (h : validIdx ns is) :
    flatten ns is < ns.prod := by
  induction h with
  | nil => simp [flatten]
  | cons hh ht ih =>
      rename_i n i ns is
      rw [flatten_cons, List.prod_cons]
      calc i * ns.prod + flatten ns is < i * ns.prod + ns.prod := by omega
        _ = (i + 1) * ns.prod := by ring
        _ ≤ n * ns.prod := Nat.mul_le_mul_right _ hh

theorem flatten_inj {ns is ts : List Nat} (h1 : validIdx ns is)
    (h2 : validIdx ns ts) (h : flatten ns is = flatten ns ts) : is = ts := by
  induction h1 generalizing ts with
  | nil =>
      rw [validIdx_nil] at h2
      exact h2.symm
  | cons hh ht ih =>
      rename_i n i ns is
      rcases validIdx_cons.mp h2 with ⟨t, tl, rfl, htn, htl⟩
      rw [flatten_cons, flatten_cons] at h
      have := mul_add_inj (flatten_lt ht) (flatten_lt htl) h
      rw [ih htl this.2, this.1]

theorem unflatten_flatten {ns is : List Nat} (h : validIdx ns is) :
    unflatten ns (flatten ns is) = is := by
  induction h with
  | nil => simp [flatten, unflatten]
  | cons hh ht ih =>
      rename_i n i ns is
      have hlt := flatten_lt ht
      have hP : 0 < ns.prod := Nat.lt_of_le_of_lt (Nat.zero_le _) hlt
      rw [flatten_cons]
      show (i * ns.prod + flatten ns is) / ns.prod ::
        unflatten ns ((i * ns.prod + flatten ns is) % ns.prod) = i :: is
      rw [Nat.mul_comm i ns.prod] at *
      rw [Nat.mul_add_div hP, Nat.div_eq_of_lt hlt, Nat.add_zero,
        Nat.mul_add_mod, Nat.mod_eq_of_lt hlt, ih]

theorem toIdx_natCast (n : Nat) : toIdx ((n : ℚ)) = some n := by
  simp [toIdx]

/-! ## Environment update lemmas -/
theorem updV_same (ve : VEnv) (j : Nat) (q : ℚ) : updV ve j q j = q := by
  simp [updV]

theorem updV_other (ve : VEnv) {j k : Nat} (q : ℚ) (h : k ≠ j) :
    updV ve j q k = ve k := by
  simp [updV, h]

theorem updB_same (be : BEnv) (n : Nat) (b : Buf) : updB be n b n = some b := by
  simp [updB]

theorem updB_other (be : BEnv) {n m : Nat} (b : Buf) (h : m ≠ n) :
    updB be n b m = be m := by
  simp [updB, h]

theorem updB_updB (be : BEnv) (n : Nat) (b c : Buf) :
    updB (updB be n b) n c = updB be n c := by
  funext m
  by_cases h : m = n <;> simp [updB, h]

theorem updB_self {be : BEnv} {n : Nat} {b : Buf} (h : be n = some b) :
    updB be n b = be := by
  funext m
  by_cases hm : m = n <;> simp [updB, hm, h.symm]

/-- Mapping a pointwise-successful partial function over a list succeeds
with the pointwise results. -/
theorem mapM_some_of_forall₂ {α β : Type} {h : α → Option β} :
    ∀ {l₁ : List α} {l₂ : List β},
      List.Forall₂ (fun a b => h a = some b) l₁ l₂ → l₁.mapM h = some l₂ := by
  intro l₁ l₂ hf
  induction hf with
  | nil => rfl
  | cons hh _ ih => rw [List.mapM_cons, hh, ih]; rfl

theorem agreesOff_refl (f : VEnv) (l : List Nat) : agreesOff f f l :=
  fun _ _ => rfl

/-- Master lemma: executing a loop nest whose innermost statement writes
value `gval ss` at position `pos ss` for the current index tuple `ss`
writes exactly those values at those positions and leaves every other
position of the output buffer unchanged. -/
theorem nest_exec (out : Nat) (dt : Dtype) (ns : List Nat) (be0 : BEnv) (K : Stmt) :
    ∀ (S : List (IdxE × Nat)) (nsS : List Nat) (pos : List Nat → Nat)
      (gval : List Nat → Val) (f : VEnv) (b : BEnv) (d : Nat → Val),
      (S.map Prod.snd).Nodup →
      (∀ fx, agreesOff fx f (S.map Prod.snd) → ExtEval fx S nsS) →
      (∀ fx bx dx, agreesOff fx f (S.map Prod.snd) →
          ∀ ss, validIdx nsS ss → IdxBind fx S ss →
          agreesOffB bx be0 out → bx out = some ⟨ns, dt, dx⟩ →
          execStmt fx K bx =
            some (updB bx out ⟨ns, dt, setAt dx (pos ss) (gval ss)⟩)) →
      (∀ ss tt, validIdx nsS ss → validIdx nsS tt → pos ss = pos tt → ss = tt) →
      agreesOffB b be0 out → b out = some ⟨ns, dt, d⟩ →
      ∃ dnew, execStmt f (nestOf S K) b = some (updB b out ⟨ns, dt, dnew⟩) ∧
        (∀ ss, validIdx nsS ss → dnew (pos ss) = gval ss) ∧
        (∀ p, (∀ ss, validIdx nsS ss → p ≠ pos ss) → dnew p = d p) := by
  intro S
  induction S with
  | nil =>
      intro nsS pos gval f b d _hnd hext hK _hinj hagree hbout
      have hns : nsS = [] := List.forall₂_nil_left_iff.mp (hext f (agreesOff_refl f _))
      subst hns
      have hkk := hK f b d (agreesOff_refl f _) [] List.Forall₂.nil List.Forall₂.nil
        hagree hbout
      refine ⟨setAt d (pos []) (gval []), ?_, ?_, ?_⟩
      · simpa [nestOf] using hkk
      · intro ss hss
        have : ss = [] := List.forall₂_nil_left_iff.mp hss
        subst this
        simp [setAt]
      · intro p hp
        have hne : p ≠ pos [] := hp [] List.Forall₂.nil
        simp [setAt, hne]
  | cons hd tl ih =>
      obtain ⟨ext, vid⟩ := hd
      intro nsS pos gval f b d hnd hext hK hinj hagree hbout
      have hvid : vid ∉ tl.map Prod.snd ∧ (tl.map Prod.snd).Nodup := by
        simpa [List.nodup_cons] using hnd
      have hef := hext f (agreesOff_refl f _)
      cases hef with
      | cons hh ht =>
        rename_i n nsS'
        -- agreement transfer: off the tail ids w.r.t. an updated env implies
        -- agreement off the full id list w.r.t. the original env
        have hagr : ∀ (i : Nat) (fx : VEnv), agreesOff fx (updV f vid i) (tl.map Prod.snd) →
            agreesOff fx f ((ext, vid) :: tl |>.map Prod.snd) := by
          intro i fx hfx k hk
          simp only [List.map_cons, List.mem_cons] at hk
          push_neg at hk
          rw [hfx k hk.2, updV_other _ _ hk.1]
        -- derived extent hypothesis for the tail
        have hext' : ∀ (i : Nat) (fx : VEnv), agreesOff fx (updV f vid i) (tl.map Prod.snd) →
            ExtEval fx tl nsS' := by
          intro i fx hfx
          have := hext fx (hagr i fx hfx)
          cases this with
          | cons _ htl => exact htl
        -- derived innermost-statement hypothesis for the tail
        have hK' : ∀ (i : Nat), i < n → ∀ fx bx dx,
            agreesOff fx (updV f vid i) (tl.map Prod.snd) →
            ∀ ss', validIdx nsS' ss' → IdxBind fx tl ss' →
            agreesOffB bx be0 out → bx out = some ⟨ns, dt, dx⟩ →
            execStmt fx K bx =
              some (updB bx out ⟨ns, dt, setAt dx (pos (i :: ss')) (gval (i :: ss'))⟩) := by
          intro i hi fx bx dx hfx ss' hv hbind hbag hbx
          refine hK fx bx dx (hagr i fx hfx) (i :: ss') ?_ ?_ hbag hbx
          · exact validIdx_cons.mpr ⟨i, ss', rfl, hi, hv⟩
          · refine List.Forall₂.cons ?_ hbind
            have : fx vid = updV f vid i vid := hfx vid hvid.1
            rw [this, updV_same]
        -- derived injectivity for the tail at a fixed head index
        have hinj' : ∀ (i : Nat), i < n → ∀ ss' tt', validIdx nsS' ss' → validIdx nsS' tt' →
            pos (i :: ss') = pos (i :: tt') → ss' = tt' := by
          intro i hi ss' tt' hv1 hv2 hpp
          have heq := hinj (i :: ss') (i :: tt')
            (validIdx_cons.mpr ⟨i, ss', rfl, hi, hv1⟩)
            (validIdx_cons.mpr ⟨i, tt', rfl, hi, hv2⟩) hpp
          injection heq
        -- the per-iteration step of the loop
        have inner : ∀ c : Nat, ∀ (s : Nat) (bcur : BEnv) (dcur : Nat → Val),
            s + c ≤ n → agreesOffB bcur be0 out → bcur out = some ⟨ns, dt, dcur⟩ →
            ∃ dnew,
              iterM (fun i bi => execStmt (updV f vid i) (nestOf tl K) bi) s c bcur =
                some (updB bcur out ⟨ns, dt, dnew⟩) ∧
              (∀ i ss', s ≤ i → i < s + c → validIdx nsS' ss' →
                dnew (pos (i :: ss')) = gval (i :: ss')) ∧
              (∀ p, (∀ i ss', s ≤ i → i < s + c → validIdx nsS' ss' →
                p ≠ pos (i :: ss')) → dnew p = dcur p) := by
          intro c
          induction c with
          | zero =>
              intro s bcur dcur _hsc hag hout
              refine ⟨dcur, ?_, ?_, ?_⟩
              · rw [iterM, updB_self hout]
              · intro i ss' h1 h2 _
                omega
              · intro p _
                rfl
          | succ c ihc =>
              intro s bcur dcur hsc hag hout
              have hsn : s < n := by omega
              obtain ⟨d1, hrun1, hval1, hfr1⟩ :=
                ih nsS' (fun ss' => pos (s :: ss')) (fun ss' => gval (s :: ss'))
                  (updV f vid s) bcur dcur hvid.2 (hext' s) (hK' s hsn)
                  (hinj' s hsn) hag hout
              have hb1ag : agreesOffB (updB bcur out ⟨ns, dt, d1⟩) be0 out := by
                intro m hm
                rw [updB_other _ _ hm]
                exact hag m hm
              obtain ⟨d2, hrun2, hval2, hfr2⟩ :=
                ihc (s + 1) (updB bcur out ⟨ns, dt, d1⟩) d1 (by omega) hb1ag
                  (updB_same _ _ _)
              refine ⟨d2, ?_, ?_, ?_⟩
              · rw [iterM]
                show (execStmt (updV f vid s) (nestOf tl K) bcur).bind _ = _
                rw [hrun1]
                show iterM _ (s + 1) c _ = _
                rw [hrun2, updB_updB]
              · intro i ss' hsi hic hv
                by_cases hi : i = s
                · subst hi
                  have hsurv : d2 (pos (i :: ss')) = d1 (pos (i :: ss')) := by
                    refine hfr2 _ ?_
                    intro i2 ss2 hi2 _ hv2 heq
                    have hcc := hinj (i :: ss') (i2 :: ss2)
                      (validIdx_cons.mpr ⟨i, ss', rfl, hsn, hv⟩)
                      (validIdx_cons.mpr ⟨i2, ss2, rfl, by omega, hv2⟩) heq
                    injection hcc with hii _
                    omega
                  rw [hsurv]
                  exact hval1 ss' hv
                · exact hval2 i ss' (by omega) (by omega) hv
              · intro p hp
                have h2 : d2 p = d1 p := by
                  refine hfr2 p ?_
                  intro i ss' h1 h2' hv
                  exact hp i ss' (by omega) (by omega) hv
                have h1 : d1 p = dcur p := by
                  refine hfr1 p ?_
                  intro ss' hv
                  exact hp s ss' (le_refl s) (by omega) hv
                rw [h2, h1]
        obtain ⟨dnew, hrun, hval, hfr⟩ := inner n 0 b d (by omega) hagree hbout
        refine ⟨dnew, ?_, ?_, ?_⟩
        · show execStmt f (.forLoop vid (.iconst 0) ext (nestOf tl K)) b = _
          rw [execStmt]
          have h0 : evalIdx f (IdxE.iconst 0) = some 0 := rfl
          rw [h0, hh]
          simpa using hrun
        · intro ss hss
          rcases validIdx_cons.mp hss with ⟨i, ss', rfl, hi, hv⟩
          exact hval i ss' (Nat.zero_le i) (by omega) hv
        · intro p hp
          refine hfr p ?_
          intro i ss' _ hin hv
          exact hp (i :: ss') (validIdx_cons.mpr ⟨i, ss', rfl, by omega, hv⟩)

theorem evalExpr_mkAdd (ve : VEnv) (be : BEnv) (a b : Expr) :
    evalExpr ve be (mkAdd a b) = evalExpr ve be (.add a b) := by
  cases a <;> cases b <;> rfl

theorem evalExpr_mkSub (ve : VEnv) (be : BEnv) (a b : Expr) :
    evalExpr ve be (mkSub a b) = evalExpr ve be (.sub a b) := by
  cases a <;> cases b <;> rfl

theorem evalExpr_mkMul (ve : VEnv) (be : BEnv) (a b : Expr) :
    evalExpr ve be (mkMul a b) = evalExpr ve be (.mul a b) := by
  cases a <;> cases b <;> rfl

/-- Simplification is semantics-preserving on expressions. -/
theorem evalExpr_simplify (ve : VEnv) (be : BEnv) :
    ∀ e : Expr, evalExpr ve be (simplifyExpr e) = evalExpr ve be e := by
  intro e
  induction e with
  | imm q => rfl
  | evar j => rfl
  | load b idxs => rfl
  | add a b iha ihb =>
      rw [simplifyExpr, evalExpr_mkAdd]
      simp [evalExpr, iha, ihb]
  | sub a b iha ihb =>
      rw [simplifyExpr, evalExpr_mkSub]
      simp [evalExpr, iha, ihb]
  | mul a b iha ihb =>
      rw [simplifyExpr, evalExpr_mkMul]
      simp [evalExpr, iha, ihb]
  | ifThenElse c a b ihc iha ihb =>
      rw [simplifyExpr]
      simp [evalExpr, ihc, iha, ihb]
  | isnan a iha =>
      rw [simplifyExpr]
      simp [evalExpr, iha]

/-- Simplification is semantics-preserving on statements. -/
theorem execStmt_simplify :
    ∀ (s : Stmt) (ve : VEnv) (be : BEnv),
      execStmt ve (simplifyStmt s) be = execStmt ve s be := by
  intro s
  induction s with
  | store b i v =>
      intro ve be
      rw [simplifyStmt, execStmt, execStmt, evalExpr_simplify]
  | forLoop j lo hi body ih =>
      intro ve be
      rw [simplifyStmt, execStmt]
      conv_rhs => rw [execStmt]
      have hl : (fun (i : Nat) bi => execStmt (updV ve j (i : ℚ)) (simplifyStmt body) bi)
          = (fun (i : Nat) bi => execStmt (updV ve j (i : ℚ)) body bi) := by
        funext i bi
        exact ih _ _
      rw [hl]
  | seq a b iha ihb =>
      intro ve be
      rw [simplifyStmt, execStmt]
      conv_rhs => rw [execStmt]
      rw [iha]
      cases execStmt ve a be with
      | none => rfl
      | some be1 => exact ihb _ _
  | nop =>
      intro ve be
      rfl
  | externalCall o op i a =>
      intro ve be
      rw [simplifyStmt, execStmt, execStmt]

/-! ## Correctness of compute-builder nests -/
/-- Executing a compute-builder statement writes the evaluated body at the
row-major position of every valid index tuple of the output shape, and
nothing else. -/
theorem compute_exec (out : Nat) (dt : Dtype) (be0 : BEnv)
    (dims : List (IdxE × Nat)) (ns : List Nat) (body : List IdxE → Expr)
    (gfun : List Nat → Val) (f : VEnv) (b : BEnv) (d : Nat → Val)
    (hnd : (dims.map Prod.snd).Nodup)
    (hext : ∀ fx, agreesOff fx f (dims.map Prod.snd) → ExtEval fx dims ns)
    (hbody : ∀ fx bx, agreesOff fx f (dims.map Prod.snd) → agreesOffB bx be0 out →
      ∀ ss, validIdx ns ss → IdxBind fx dims ss →
      evalExpr fx bx (body (dims.map (fun dd => IdxE.ivar dd.2))) = some (gfun ss))
    (hagree : agreesOffB b be0 out) (hbout : b out = some ⟨ns, dt, d⟩) :
    ∃ dnew, execStmt f (computeStmt out dims body) b = some (updB b out ⟨ns, dt, dnew⟩) ∧
      (∀ ss, validIdx ns ss → dnew (flatten ns ss) = gfun ss) ∧
      (∀ p, (∀ ss, validIdx ns ss → p ≠ flatten ns ss) → dnew p = d p) := by
  refine nest_exec out dt ns be0 _ dims ns (flatten ns) gfun f b d hnd hext ?_
    (fun ss tt h1 h2 h => flatten_inj h1 h2 h) hagree hbout
  intro fx bx dx hfx ss hv hbind hbag hbx
  have hidx : (dims.map (fun dd => IdxE.ivar dd.2)).mapM (evalIdx fx) = some ss := by
    refine mapM_some_of_forall₂ ?_
    rw [List.forall₂_map_left_iff]
    refine hbind.imp ?_
    intro dd i hdd
    show evalIdx fx (IdxE.ivar dd.2) = some i
    rw [evalIdx, hdd, toIdx_natCast]
  have hval := hbody fx bx hfx hbag ss hv hbind
  rw [execStmt, hbx]
  simp only [Option.bind_eq_bind, Option.some_bind, hidx, hval]
  rfl

/-- C4: for every pair of same-dtype input buffers of length N, the
interpreter-backend artifact for `C[i] = A[i] + B[i]` writes at every
index i < N exactly the value the host runtime computes for A + B there. -/
theorem c4_interpreter_add_elementwise (n : Nat) (dt : Dtype) (dA dB dC0 : Nat → Val) :
    ∃ cg, constructAdder n dt = some cg ∧
    ∃ be, cg.call [.tensor ⟨[n], dt, dA⟩, .tensor ⟨[n], dt, dB⟩, .tensor ⟨[n], dt, dC0⟩]
        = some be ∧
    ∃ bc, be 2 = some bc ∧
      ∀ i, i < n → bc.data i = (hostAdd ⟨[n], dt, dA⟩ ⟨[n], dt, dB⟩).data i := by
  refine ⟨_, rfl, ?_⟩
  have haux : callTypedAux
      [.bufArg ⟨0, [.iconst n], dt⟩, .bufArg ⟨1, [.iconst n], dt⟩,
        .bufArg ⟨2, [.iconst n], dt⟩]
      [.tensor ⟨[n], dt, dA⟩, .tensor ⟨[n], dt, dB⟩, .tensor ⟨[n], dt, dC0⟩]
      emptyV emptyB
      = some (emptyV, adderEnv n dt dA dB dC0) := by
    simp [callTypedAux, adderEnv]
  have hbody : ∀ (fx : VEnv) (bx : BEnv),
      agreesOff fx emptyV ([((IdxE.iconst n : IdxE), (0 : Nat))].map Prod.snd) →
      agreesOffB bx (adderEnv n dt dA dB dC0) 2 →
      ∀ ss, validIdx [n] ss → IdxBind fx [(IdxE.iconst n, 0)] ss →
      evalExpr fx bx (adderBody ([((IdxE.iconst n : IdxE), (0 : Nat))].map
          (fun dd => IdxE.ivar dd.2)))
        = some (vadd (dA (ss.headD 0)) (dB (ss.headD 0))) := by
    intro fx bx _hfx hbag ss _hv hbind
    cases hbind with
    | cons h1 h2 =>
      cases h2
      rename_i i
      have hb0 : bx 0 = some ⟨[n], dt, dA⟩ := by
        rw [hbag 0 (by decide)]
        simp [adderEnv, updB]
      have hb1 : bx 1 = some ⟨[n], dt, dB⟩ := by
        rw [hbag 1 (by decide)]
        simp [adderEnv, updB]
      have hidx : evalIdx fx (IdxE.ivar 0) = some i := by
        rw [evalIdx]
        rw [show fx 0 = ((i : Nat) : ℚ) from h1, toIdx_natCast]
      simp only [adderBody, evalExpr, hb0, hb1, List.map, hidx, List.mapM_cons,
        List.mapM_nil, Option.bind_eq_bind, Option.some_bind, Option.pure_def]
      simp [flatten]
  obtain ⟨dnew, hrun, hval, _⟩ :=
    compute_exec 2 dt (adderEnv n dt dA dB dC0)
      [(IdxE.iconst n, 0)] [n] adderBody
      (fun ss => vadd (dA (ss.headD 0)) (dB (ss.headD 0)))
      emptyV (adderEnv n dt dA dB dC0)
      dC0 (by simp)
      (fun fx _ => List.Forall₂.cons rfl List.Forall₂.nil)
      hbody (fun m hm => rfl) (updB_same _ _ _)
  refine ⟨updB (adderEnv n dt dA dB dC0) 2 ⟨[n], dt, dnew⟩, ?_, ?_⟩
  · simp only [Codegen.call, Compute, LoopNest.ofTensors, LoopNest.prepareForCodegen,
      List.map, List.foldr]
    rw [haux]
    simp only [Option.bind_eq_bind, Option.some_bind]
    rw [execStmt_simplify]
    show execStmt emptyV (.seq (computeStmt 2 [(IdxE.iconst n, 0)] adderBody) .nop) _ = _
    rw [execStmt]
    rw [hrun]
    show execStmt emptyV .nop _ = _
    rw [execStmt]
  · refine ⟨⟨[n], dt, dnew⟩, updB_same _ _ _, ?_⟩
    intro i hi
    have hv1 := hval [i] (List.Forall₂.cons hi List.Forall₂.nil)
    have hfl : flatten [n] [i] = i := by simp [flatten]
    rw [hfl] at hv1
    exact hv1

/-- C3: the fixed dynamic-shape artifact, invoked with any positive
concrete extent m as a call-time argument, computes `C[i] = A[i] - B[i]`
at every index i < m — no rebuild or recompilation is involved since
`dynCodegen` is one fixed artifact. -/
theorem c3_dynamic_extent_correct (m : Nat) (_hm : 0 < m) (dA dB dC0 : Nat → Val) :
    ∃ cg, dynCodegen = some cg ∧
    ∃ be, cg.call [.tensor ⟨[m], .Double, dA⟩, .tensor ⟨[m], .Double, dB⟩,
        .tensor ⟨[m], .Double, dC0⟩, .scalar m] = some be ∧
    ∃ bc, be 2 = some bc ∧
      ∀ i, i < m → bc.data i = vsub (dA i) (dB i) := by
  refine ⟨_, rfl, ?_⟩
  have haux : callTypedAux
      [.bufArg ⟨0, [.ivar 1], .Double⟩, .bufArg ⟨1, [.ivar 1], .Double⟩,
        .bufArg ⟨2, [.ivar 1], .Double⟩, .varArg 1]
      [.tensor ⟨[m], .Double, dA⟩, .tensor ⟨[m], .Double, dB⟩,
        .tensor ⟨[m], .Double, dC0⟩, .scalar m]
      emptyV emptyB
      = some (updV emptyV 1 (m : ℚ), dynEnv m dA dB dC0) := by
    simp [callTypedAux, dynEnv]
  have hext : ∀ fx, agreesOff fx (updV emptyV 1 (m : ℚ))
      ([((IdxE.ivar 1 : IdxE), (0 : Nat))].map Prod.snd) →
      ExtEval fx [(IdxE.ivar 1, 0)] [m] := by
    intro fx hfx
    refine List.Forall₂.cons ?_ List.Forall₂.nil
    show evalIdx fx (IdxE.ivar 1) = some m
    rw [evalIdx]
    have h1 : fx 1 = updV emptyV 1 (m : ℚ) 1 := hfx 1 (by decide)
    rw [h1, updV_same, toIdx_natCast]
  have hbody : ∀ (fx : VEnv) (bx : BEnv),
      agreesOff fx (updV emptyV 1 (m : ℚ)) ([((IdxE.ivar 1 : IdxE), (0 : Nat))].map Prod.snd) →
      agreesOffB bx (dynEnv m dA dB dC0) 2 →
      ∀ ss, validIdx [m] ss → IdxBind fx [(IdxE.ivar 1, 0)] ss →
      evalExpr fx bx (dynSubBody ([((IdxE.ivar 1 : IdxE), (0 : Nat))].map
          (fun dd => IdxE.ivar dd.2)))
        = some (vsub (dA (ss.headD 0)) (dB (ss.headD 0))) := by
    intro fx bx _hfx hbag ss _hv hbind
    cases hbind with
    | cons h1 h2 =>
      cases h2
      rename_i i
      have hb0 : bx 0 = some ⟨[m], .Double, dA⟩ := by
        rw [hbag 0 (by decide)]
        simp [dynEnv, updB]
      have hb1 : bx 1 = some ⟨[m], .Double, dB⟩ := by
        rw [hbag 1 (by decide)]
        simp [dynEnv, updB]
      have hidx : evalIdx fx (IdxE.ivar 0) = some i := by
        rw [evalIdx]
        rw [show fx 0 = ((i : Nat) : ℚ) from h1, toIdx_natCast]
      simp only [dynSubBody, evalExpr, hb0, hb1, List.map, hidx, List.mapM_cons,
        List.mapM_nil, Option.bind_eq_bind, Option.some_bind, Option.pure_def]
      simp [flatten]
  obtain ⟨dnew, hrun, hval, _⟩ :=
    compute_exec 2 .Double (dynEnv m dA dB dC0)
      [(IdxE.ivar 1, 0)] [m] dynSubBody
      (fun ss => vsub (dA (ss.headD 0)) (dB (ss.headD 0)))
      (updV emptyV 1 (m : ℚ)) (dynEnv m dA dB dC0)
      dC0 (by simp) hext hbody (fun k hk => rfl) (updB_same _ _ _)
  refine ⟨updB (dynEnv m dA dB dC0) 2 ⟨[m], .Double, dnew⟩, ?_, ?_⟩
  · simp only [Codegen.call, Compute, LoopNest.ofTensors, LoopNest.prepareForCodegen,
      List.map, List.foldr]
    rw [haux]
    simp only [Option.bind_eq_bind, Option.some_bind]
    rw [execStmt_simplify]
    show execStmt (updV emptyV 1 (m : ℚ))
      (.seq (computeStmt 2 [(IdxE.ivar 1, 0)] dynSubBody) .nop) _ = _
    rw [execStmt]
    rw [hrun]
    show execStmt (updV emptyV 1 (m : ℚ)) .nop _ = _
    rw [execStmt]
  · refine ⟨⟨[m], .Double, dnew⟩, updB_same _ _ _, ?_⟩
    intro i hi
    have hv1 := hval [i] (List.Forall₂.cons hi List.Forall₂.nil)
    have hfl : flatten [m] [i] = i := by simp [flatten]
    rw [hfl] at hv1
    exact hv1

/-- Witness for C3: the one fixed artifact produces correct results at the
two distinct extents 8 and 31 exercised by the harness. -/
theorem c3_dynamic_extent_correct_witness :
    ((0 : Nat) < 8 ∧ ∃ cg, dynCodegen = some cg ∧
      ∃ be, cg.call [.tensor ⟨[8], .Double, fun p => some (p : ℚ)⟩,
          .tensor ⟨[8], .Double, fun _ => some 1⟩,
          .tensor ⟨[8], .Double, fun _ => some 0⟩, .scalar 8] = some be ∧
      ∃ bc, be 2 = some bc ∧
        ∀ i, i < 8 → bc.data i = vsub (some (i : ℚ)) (some 1)) ∧
    ((0 : Nat) < 31 ∧ ∃ cg, dynCodegen = some cg ∧
      ∃ be, cg.call [.tensor ⟨[31], .Double, fun p => some (p : ℚ)⟩,
          .tensor ⟨[31], .Double, fun _ => some 1⟩,
          .tensor ⟨[31], .Double, fun _ => some 0⟩, .scalar 31] = some be ∧
      ∃ bc, be 2 = some bc ∧
        ∀ i, i < 31 → bc.data i = vsub (some (i : ℚ)) (some 1)) :=
  ⟨⟨by decide, c3_dynamic_extent_correct 8 (by decide) (fun p => some (p : ℚ))
      (fun _ => some 1) (fun _ => some 0)⟩,
    ⟨by decide, c3_dynamic_extent_correct 31 (by decide) (fun p => some (p : ℚ))
      (fun _ => some 1) (fun _ => some 0)⟩⟩

/-- C5: executing a single external-call node through the interpreter
backend writes into C exactly the data the host tensor runtime's matmul
produces for the same inputs. -/
theorem c5_external_call_matmul (m k n : Nat) (dA dB dC0 : Nat → Val) :
    ∃ cg, extMatmulCodegen m k n = some cg ∧
    ∃ be, cg.call [.tensor ⟨[m, k], .Float, dA⟩, .tensor ⟨[k, n], .Float, dB⟩,
        .tensor ⟨[m, n], .Float, dC0⟩] = some be ∧
    ∃ res, hostMatmul [⟨[m, k], .Float, dA⟩, ⟨[k, n], .Float, dB⟩] = some res ∧
      be 2 = some ⟨[m, n], .Float, res.data⟩ := by
  refine ⟨_, rfl, ?_⟩
  have haux : callTypedAux
      [.bufArg ⟨0, [.iconst m, .iconst k], .Float⟩,
        .bufArg ⟨1, [.iconst k, .iconst n], .Float⟩,
        .bufArg ⟨2, [.iconst m, .iconst n], .Float⟩]
      [.tensor ⟨[m, k], .Float, dA⟩, .tensor ⟨[k, n], .Float, dB⟩,
        .tensor ⟨[m, n], .Float, dC0⟩]
      emptyV emptyB
      = some (emptyV,
          updB (updB (updB emptyB 0 ⟨[m, k], .Float, dA⟩) 1 ⟨[k, n], .Float, dB⟩)
            2 ⟨[m, n], .Float, dC0⟩) := by
    simp [callTypedAux]
  have hmm : hostMatmul [⟨[m, k], .Float, dA⟩, ⟨[k, n], .Float, dB⟩]
      = some ⟨[m, n], .Float,
          fun p => vsum k (fun t => vmul (dA (p / n * k + t)) (dB (t * n + p % n)))⟩ := by
    simp [hostMatmul]
  refine ⟨updB (updB (updB (updB emptyB 0 ⟨[m, k], .Float, dA⟩) 1 ⟨[k, n], .Float, dB⟩)
      2 ⟨[m, n], .Float, dC0⟩) 2
      ⟨[m, n], .Float,
        fun p => vsum k (fun t => vmul (dA (p / n * k + t)) (dB (t * n + p % n)))⟩,
    ?_, ?_⟩
  · simp only [Codegen.call, LoopNest.ofStmt, LoopNest.prepareForCodegen]
    rw [haux]
    simp only [Option.bind_eq_bind, Option.some_bind]
    rw [execStmt]
    have hreg : externalFns "nnc_aten_matmul" = some hostMatmul := rfl
    rw [hreg]
    have hins : [0, 1].mapM (updB (updB (updB emptyB 0 ⟨[m, k], .Float, dA⟩)
        1 ⟨[k, n], .Float, dB⟩) 2 ⟨[m, n], .Float, dC0⟩)
        = some [⟨[m, k], .Float, dA⟩, ⟨[k, n], .Float, dB⟩] := by
      have h0 : (updB (updB (updB emptyB 0 ⟨[m, k], .Float, dA⟩)
          1 ⟨[k, n], .Float, dB⟩) 2 ⟨[m, n], .Float, dC0⟩) 0
          = some ⟨[m, k], .Float, dA⟩ := by simp [updB]
      have h1 : (updB (updB (updB emptyB 0 ⟨[m, k], .Float, dA⟩)
          1 ⟨[k, n], .Float, dB⟩) 2 ⟨[m, n], .Float, dC0⟩) 1
          = some ⟨[k, n], .Float, dB⟩ := by simp [updB]
      rw [List.mapM_cons, List.mapM_cons, List.mapM_nil, h0, h1]
      rfl
    rw [hins]
    simp only [Option.bind_eq_bind, Option.some_bind, hmm]
    rfl
  · exact ⟨_, hmm, updB_same _ _ _⟩

/-- The scalar bindings computed by the raw call coincide with those the
typed call computes. -/
theorem rawScalars_of_callTypedAux :
    ∀ (ps : List CgParam) (args : List CArg) (ve0 : VEnv) (be0 : BEnv)
      (ve : VEnv) (be : BEnv),
      callTypedAux ps args ve0 be0 = some (ve, be) →
      rawScalars ps (args.map extractRaw) ve0 = some ve := by
  intro ps
  induction ps with
  | nil =>
      intro args ve0 be0 ve be h
      cases args with
      | nil =>
          rw [callTypedAux] at h
          injection h with h
          injection h with h1 h2
          rw [List.map_nil, rawScalars, h1]
      | cons a rest => cases a <;> simp [callTypedAux] at h
  | cons p ps ih =>
      intro args ve0 be0 ve be h
      cases p with
      | bufArg dcl =>
          cases args with
          | nil => simp [callTypedAux] at h
          | cons a rest =>
              cases a with
              | tensor t =>
                  rw [callTypedAux] at h
                  split at h
                  · rw [List.map_cons, extractRaw, rawScalars]
                    exact ih rest ve0 _ ve be h
                  · exact absurd h (by simp)
              | scalar nn => simp [callTypedAux] at h
      | varArg j =>
          cases args with
          | nil => simp [callTypedAux] at h
          | cons a rest =>
              cases a with
              | tensor t => simp [callTypedAux] at h
              | scalar nn =>
                  rw [callTypedAux] at h
                  rw [List.map_cons, extractRaw, rawScalars]
                  exact ih rest _ be0 ve be h

/-- Under the stable-shape precondition, the buffer bindings computed by
the raw call coincide with those the typed call computes. -/
theorem rawBufs_of_callTypedAux (veF : VEnv) :
    ∀ (ps : List CgParam) (args : List CArg) (ve0 : VEnv) (be0 : BEnv)
      (ve : VEnv) (be : BEnv),
      callTypedAux ps args ve0 be0 = some (ve, be) →
      shapesAgreeB veF ps args = true →
      rawBufs veF ps (args.map extractRaw) be0 = some be := by
  intro ps
  induction ps with
  | nil =>
      intro args ve0 be0 ve be h hsh
      cases args with
      | nil =>
          rw [callTypedAux] at h
          injection h with h
          injection h with h1 h2
          rw [List.map_nil, rawBufs, h2]
      | cons a rest => cases a <;> simp [callTypedAux] at h
  | cons p ps ih =>
      intro args ve0 be0 ve be h hsh
      cases p with
      | bufArg dcl =>
          cases args with
          | nil => simp [callTypedAux] at h
          | cons a rest =>
              cases a with
              | tensor t =>
                  rw [callTypedAux] at h
                  split at h
                  · rename_i hcond
                    rw [shapesAgreeB, Bool.and_eq_true, decide_eq_true_iff] at hsh
                    rw [List.map_cons, extractRaw, rawBufs]
                    rw [hsh.1]
                    simp only [Option.bind_eq_bind, Option.some_bind]
                    rw [show (⟨t.shape, dcl.dtype, t.data⟩ : Buf)
                        = ⟨t.shape, t.dtype, t.data⟩ by rw [hcond.1]]
                    exact ih rest ve0 _ ve be h hsh.2
                  · exact absurd h (by simp)
              | scalar nn => simp [callTypedAux] at h
      | varArg j =>
          cases args with
          | nil => simp [callTypedAux] at h
          | cons a rest =>
              cases a with
              | tensor t => simp [callTypedAux] at h
              | scalar nn =>
                  rw [callTypedAux] at h
                  rw [shapesAgreeB] at hsh
                  rw [List.map_cons, extractRaw, rawBufs]
                  exact ih rest _ be0 ve be h hsh

/-- C6: invoking an artifact through the raw call with the pre-extracted
memory addresses of the same logical inputs produces output identical to
the validated typed call, whenever the typed call succeeds and the
tensors' shapes agree with the declared parameter shapes. -/
theorem c6_call_raw_matches_call (cg : Codegen) (args : List CArg) (beR : BEnv)
    (hsh : rawShapesOk cg args = true)
    (hcall : cg.call args = some beR) :
    cg.callRaw (args.map extractRaw) = some beR := by
  rw [Codegen.call] at hcall
  cases haux : callTypedAux cg.params args emptyV emptyB with
  | none => rw [haux] at hcall; exact absurd hcall (by simp)
  | some vb =>
      obtain ⟨ve, be1⟩ := vb
      rw [haux] at hcall
      simp only [Option.bind_eq_bind, Option.some_bind] at hcall
      have hsc := rawScalars_of_callTypedAux cg.params args emptyV emptyB ve be1 haux
      rw [rawShapesOk, hsc] at hsh
      have hbf := rawBufs_of_callTypedAux ve cg.params args emptyV emptyB ve be1 haux hsh
      rw [Codegen.callRaw, hsc]
      simp only [Option.bind_eq_bind, Option.some_bind]
      rw [hbf]
      simp only [Option.some_bind]
      exact hcall

/-- Witness for C6: a concrete artifact and input on which the typed call
succeeds and the raw call returns the identical environment. -/
theorem c6_call_raw_matches_call_witness :
    (rawShapesOk ⟨.nop, [.bufArg ⟨0, [.iconst 1], .Float⟩]⟩
        [.tensor ⟨[1], .Float, fun _ => some 0⟩] = true ∧
      Codegen.call ⟨.nop, [.bufArg ⟨0, [.iconst 1], .Float⟩]⟩
        [.tensor ⟨[1], .Float, fun _ => some 0⟩]
        = some (updB emptyB 0 ⟨[1], .Float, fun _ => some 0⟩)) ∧
    Codegen.callRaw ⟨.nop, [.bufArg ⟨0, [.iconst 1], .Float⟩]⟩
      (List.map extractRaw [.tensor ⟨[1], .Float, fun _ => some 0⟩])
      = some (updB emptyB 0 ⟨[1], .Float, fun _ => some 0⟩) := by
  have hA : rawShapesOk ⟨.nop, [.bufArg ⟨0, [.iconst 1], .Float⟩]⟩
      [.tensor ⟨[1], .Float, fun _ => some 0⟩] = true := by decide
  have hB : Codegen.call ⟨.nop, [.bufArg ⟨0, [.iconst 1], .Float⟩]⟩
      [.tensor ⟨[1], .Float, fun _ => some 0⟩]
      = some (updB emptyB 0 ⟨[1], .Float, fun _ => some 0⟩) := by
    rw [Codegen.call]
    rw [show callTypedAux [.bufArg ⟨0, [.iconst 1], .Float⟩]
        [.tensor ⟨[1], .Float, fun _ => some 0⟩] emptyV emptyB
        = some (emptyV, updB emptyB 0 ⟨[1], .Float, fun _ => some 0⟩) by
      simp [callTypedAux]]
    simp only [Option.bind_eq_bind, Option.some_bind]
    rw [execStmt]
  exact ⟨⟨hA, hB⟩, c6_call_raw_matches_call _ _ _ hA hB⟩

theorem closeVal_refl (v : Val) : closeVal v v := by
  cases v with
  | none => trivial
  | some a =>
      show |a - a| ≤ atol
      rw [sub_self, abs_zero]
      norm_num [atol]

theorem bindTensors_nil (be : BEnv) : bindTensors [] be = be := rfl

theorem bindTensors_cons (pr : BufDecl × Buf) (prs : List (BufDecl × Buf)) (be : BEnv) :
    bindTensors (pr :: prs) be = bindTensors prs (updB be pr.1.name pr.2) := rfl

theorem bindTensors_notin :
    ∀ (prs : List (BufDecl × Buf)) (be : BEnv) (j : Nat),
      j ∉ prs.map (fun pr => pr.1.name) → bindTensors prs be j = be j := by
  intro prs
  induction prs with
  | nil => intro be j _; rfl
  | cons pr rest ih =>
      intro be j hj
      rw [List.map_cons, List.mem_cons] at hj
      push_neg at hj
      rw [bindTensors_cons, ih _ _ hj.2, updB_other _ _ hj.1]

theorem bindTensors_get :
    ∀ (prs : List (BufDecl × Buf)) (be : BEnv) (pr : BufDecl × Buf),
      (prs.map (fun q => q.1.name)).Nodup → pr ∈ prs →
      bindTensors prs be pr.1.name = some pr.2 := by
  intro prs
  induction prs with
  | nil => intro be pr _ h; cases h
  | cons hd rest ih =>
      intro be pr hnd hmem
      have hnd2 : hd.1.name ∉ rest.map (fun q => q.1.name) ∧
          (rest.map (fun q => q.1.name)).Nodup := by
        simpa [List.nodup_cons] using hnd
      rw [List.mem_cons] at hmem
      cases hmem with
      | inl heq =>
          subst heq
          rw [bindTensors_cons, bindTensors_notin _ _ _ hnd2.1, updB_same]
      | inr hmem =>
          rw [bindTensors_cons]
          exact ih _ pr hnd2.2 hmem

/-- Processing validated buffer arguments binds each tensor at its
declared identity. -/
theorem callTypedAux_bufs :
    ∀ {decls : List BufDecl} {ins : List Buf},
      List.Forall₂ (fun (d : BufDecl) (b : Buf) =>
        b.dtype = d.dtype ∧ b.shape.length = d.shape.length) decls ins →
      ∀ (ps : List CgParam) (as2 : List CArg) (ve0 : VEnv) (be0 : BEnv),
      callTypedAux (decls.map .bufArg ++ ps) (ins.map .tensor ++ as2) ve0 be0
        = callTypedAux ps as2 ve0 (bindTensors (decls.zip ins) be0) := by
  intro decls ins h
  induction h with
  | nil => intro ps as2 ve0 be0; rfl
  | cons hh ht ih =>
      intro ps as2 ve0 be0
      rename_i d b ds bs
      rw [List.map_cons, List.map_cons, List.cons_append, List.cons_append, callTypedAux]
      rw [if_pos ⟨hh.1, hh.2⟩]
      rw [List.zip_cons_cons, bindTensors_cons]
      exact ih ps as2 ve0 (updB be0 d.name ⟨b.shape, b.dtype, b.data⟩)

/-- The extents of an iconst-dimension nest evaluate to the dimension
values under any environment. -/
theorem extEval_iconst :
    ∀ (ds ids : List Nat) (fx : VEnv), ids.length = ds.length →
      ExtEval fx ((ds.map IdxE.iconst).zip ids) ds := by
  intro ds
  induction ds with
  | nil => intro ids fx _; exact List.Forall₂.nil
  | cons d ds ih =>
      intro ids fx hlen
      cases ids with
      | nil => simp at hlen
      | cons i ids =>
          rw [List.map_cons, List.zip_cons_cons]
          refine List.Forall₂.cons rfl (ih ids fx ?_)
          simpa using hlen

/-- Convert a loop-variable binding over an iconst nest into pointwise
bindings of the positional loop variables. -/
theorem idxBind_pointwise (outDims ss : List Nat) (fx : VEnv)
    (h : IdxBind fx ((outDims.map IdxE.iconst).zip (List.range outDims.length)) ss) :
    ss.length = outDims.length ∧
      ∀ l, l < outDims.length → fx l = ((ss.getD l 0 : Nat) : ℚ) := by
  have hzl : ((outDims.map IdxE.iconst).zip (List.range outDims.length)).length
      = outDims.length := by
    simp [List.length_zip]
  have hlen := h.length_eq
  rw [hzl] at hlen
  refine ⟨hlen.symm, ?_⟩
  intro l hl
  have hget := (List.forall₂_iff_get.mp h).2 l (by rw [hzl]; exact hl)
    (by rw [← hlen]; exact hl)
  simp only [List.get_eq_getElem, List.getElem_zip, List.getElem_map,
    List.getElem_range] at hget
  rw [List.getD_eq_getElem _ _ (by rw [← hlen]; exact hl)]
  simpa using hget

/-- The kernel pipeline, factored: a typed call of the compiled artifact
(inputs then output, compute nest over the declared output dimensions)
binds the inputs, runs the nest, and writes the evaluated body at every
valid output position. -/
theorem kernel_call_correct
    (decls : List BufDecl) (ins : List Buf) (outId : Nat) (outDims : List Nat)
    (body : List IdxE → Expr) (gfun : List Nat → Val) (dC0 : Nat → Val)
    (hforall : List.Forall₂ (fun (d : BufDecl) (b : Buf) =>
        b.dtype = d.dtype ∧ b.shape.length = d.shape.length) decls ins)
    (hbody : ∀ (fx : VEnv) (bx : BEnv),
        agreesOffB bx (bindTensors (decls.zip ins) emptyB) outId →
        ∀ ss, validIdx outDims ss → ss.length = outDims.length →
        (∀ l, l < outDims.length → fx l = ((ss.getD l 0 : Nat) : ℚ)) →
        evalExpr fx bx (body ((List.range outDims.length).map IdxE.ivar))
          = some (gfun ss)) :
    ∃ dnew,
      Codegen.call
        ⟨simplifyStmt (.seq (computeStmt outId
            ((outDims.map IdxE.iconst).zip (List.range outDims.length)) body) .nop),
          decls.map .bufArg ++ [.bufArg ⟨outId, outDims.map IdxE.iconst, .Float⟩]⟩
        (ins.map .tensor ++ [.tensor ⟨outDims, .Float, dC0⟩])
        = some (updB (bindTensors (decls.zip ins) emptyB) outId ⟨outDims, .Float, dnew⟩) ∧
      ∀ ss, validIdx outDims ss → dnew (flatten outDims ss) = gfun ss := by
  have hvars : (((outDims.map IdxE.iconst).zip (List.range outDims.length)).map
      (fun dd => IdxE.ivar dd.2)) = (List.range outDims.length).map IdxE.ivar := by
    rw [show (fun (dd : IdxE × Nat) => IdxE.ivar dd.2) = IdxE.ivar ∘ Prod.snd from rfl]
    rw [← List.map_map, List.map_snd_zip]
    simp
  have hsnd : ((outDims.map IdxE.iconst).zip (List.range outDims.length)).map Prod.snd
      = List.range outDims.length := by
    rw [List.map_snd_zip]
    simp
  have hbodyC : ∀ (fx : VEnv) (bx : BEnv),
      agreesOff fx emptyV (((outDims.map IdxE.iconst).zip (List.range outDims.length)).map
        Prod.snd) →
      agreesOffB bx (updB (bindTensors (decls.zip ins) emptyB) outId
        ⟨outDims, .Float, dC0⟩) outId →
      ∀ ss, validIdx outDims ss →
      IdxBind fx ((outDims.map IdxE.iconst).zip (List.range outDims.length)) ss →
      evalExpr fx bx (body (((outDims.map IdxE.iconst).zip
        (List.range outDims.length)).map (fun dd => IdxE.ivar dd.2))) = some (gfun ss) := by
    intro fx bx _hfx hbag ss hv hbind
    obtain ⟨hlen, hpt⟩ := idxBind_pointwise outDims ss fx hbind
    have hbag2 : agreesOffB bx (bindTensors (decls.zip ins) emptyB) outId := by
      intro m hm
      rw [hbag m hm, updB_other _ _ hm]
    rw [hvars]
    exact hbody fx bx hbag2 ss hv hlen hpt
  obtain ⟨dnew, hrun, hval, _⟩ :=
    compute_exec outId .Float
      (updB (bindTensors (decls.zip ins) emptyB) outId ⟨outDims, .Float, dC0⟩)
      ((outDims.map IdxE.iconst).zip (List.range outDims.length)) outDims body gfun
      emptyV
      (updB (bindTensors (decls.zip ins) emptyB) outId ⟨outDims, .Float, dC0⟩)
      dC0
      (by rw [hsnd]; exact List.nodup_range _)
      (fun fx _ => extEval_iconst outDims (List.range outDims.length) fx (by simp))
      hbodyC (fun m hm => rfl) (updB_same _ _ _)
  refine ⟨dnew, ?_, hval⟩
  rw [Codegen.call]
  show (callTypedAux (decls.map .bufArg ++ _) (ins.map .tensor ++ _) emptyV emptyB).bind _ = _
  rw [callTypedAux_bufs hforall]
  rw [callTypedAux]
  rw [if_pos ⟨rfl, by simp⟩]
  rw [callTypedAux]
  simp only [Option.bind_eq_bind, Option.some_bind]
  rw [execStmt_simplify]
  rw [execStmt]
  rw [hrun]
  show execStmt emptyV .nop _ = _
  rw [execStmt]
  rw [updB_updB]

/-- Unfolding of the kernel run path into a typed call of the compiled
artifact followed by reading the output buffer. -/
theorem kernelRun_eq (g : CoveredGraph) (ins : List Buf) :
    kernelRun g ins = (Codegen.call
      ⟨simplifyStmt (.seq (computeStmt (kIns g)
          (((kDims g).map IdxE.iconst).zip (List.range (kDims g).length)) (kBody g)) .nop),
        (inputDecls g).map .bufArg ++ [.bufArg ⟨kIns g, (kDims g).map IdxE.iconst, .Float⟩]⟩
      (ins.map .tensor ++ [.tensor ⟨kDims g, .Float, fun _ => some 0⟩])).bind
      (fun be => be (kIns g)) := by
  have hcg : kernelCompile g = some
      ⟨simplifyStmt (.seq (computeStmt (kIns g)
          (((kDims g).map IdxE.iconst).zip (List.range (kDims g).length)) (kBody g)) .nop),
        (inputDecls g).map .bufArg ++ [.bufArg ⟨kIns g, (kDims g).map IdxE.iconst, .Float⟩]⟩ := by
    rw [kernelCompile, constructCodegen, if_pos rfl]
    simp only [Compute, LoopNest.ofTensors, LoopNest.prepareForCodegen, List.foldr]
    rw [List.map_fst_zip _ _ (by simp)]
  rw [kernelRun, hcg]
  rfl

/-- The transpose case of the run/fallback agreement. -/
theorem c1aux_transpose (m n : Nat) (a : Buf) (hsh : a.shape = [m, n])
    (hdt : a.dtype = Dtype.Float) :
    ∃ r1, kernelRun (.transpose m n) [a] = some r1 ∧
      ∀ is, validIdx [n, m] is →
        r1.data (flatten [n, m] is) = (hostTranspose a).data (flatten [n, m] is) := by
  have hforall : List.Forall₂ (fun (d : BufDecl) (b : Buf) =>
      b.dtype = d.dtype ∧ b.shape.length = d.shape.length)
      [⟨0, [.iconst m, .iconst n], .Float⟩] [a] := by
    exact List.Forall₂.cons ⟨hdt, by simp [hsh]⟩ List.Forall₂.nil
  have hbody : ∀ (fx : VEnv) (bx : BEnv),
      agreesOffB bx (bindTensors ([(⟨0, [.iconst m, .iconst n], .Float⟩ : BufDecl)].zip [a])
        emptyB) 1 →
      ∀ ss, validIdx [n, m] ss → ss.length = ([n, m] : List Nat).length →
      (∀ l, l < ([n, m] : List Nat).length → fx l = ((ss.getD l 0 : Nat) : ℚ)) →
      evalExpr fx bx (kBody (.transpose m n)
        ((List.range ([n, m] : List Nat).length).map IdxE.ivar))
        = some ((hostTranspose a).data (flatten [n, m] ss)) := by
    intro fx bx hbag ss hv hlen hpt
    match ss, hlen with
    | [i, j], _ =>
        have hij : validIdx [n, m] [i, j] := hv
        rcases validIdx_cons.mp hij with ⟨i2, tl, heq, hin, htl⟩
        injection heq with h1 h2
        subst h1
        subst h2
        rcases validIdx_cons.mp htl with ⟨j2, tl2, heq2, hjm, _⟩
        injection heq2 with h3 h4
        subst h3
        have hb0 : bx 0 = some a := by
          rw [hbag 0 (by decide)]
          show bindTensors [((⟨0, [.iconst m, .iconst n], .Float⟩ : BufDecl), a)] emptyB 0
            = some a
          rw [bindTensors_cons, bindTensors_nil, updB_same]
        have hfx0 : fx 0 = ((i : Nat) : ℚ) := hpt 0 (by simp)
        have hfx1 : fx 1 = ((j : Nat) : ℚ) := hpt 1 (by simp)
        have hrange : (List.range ([n, m] : List Nat).length).map IdxE.ivar
            = [IdxE.ivar 0, IdxE.ivar 1] := rfl
        rw [hrange]
        show evalExpr fx bx (.load 0 [.ivar 1, .ivar 0]) = _
        rw [evalExpr]
        rw [hb0]
        have hm1 : evalIdx fx (IdxE.ivar 1) = some j := by
          rw [evalIdx, hfx1, toIdx_natCast]
        have hm0 : evalIdx fx (IdxE.ivar 0) = some i := by
          rw [evalIdx, hfx0, toIdx_natCast]
        rw [List.mapM_cons, List.mapM_cons, List.mapM_nil, hm1, hm0]
        have hT : hostTranspose a
            = ⟨[n, m], a.dtype, fun p => a.data ((p % m) * n + p / m)⟩ := by
          rw [hostTranspose, hsh]
        rw [hT]
        have hpos : flatten [n, m] [i, j] = i * m + j := by
          simp [flatten]
        have hsrc : flatten a.shape [j, i] = j * n + i := by
          rw [hsh]
          simp [flatten]
        have hmod : (i * m + j) % m = j := by
          rw [Nat.add_comm, Nat.add_mul_mod_self_right, Nat.mod_eq_of_lt hjm]
        have hdiv : (i * m + j) / m = i := by
          rw [Nat.add_comm, Nat.add_mul_div_right _ _ (by omega), Nat.div_eq_of_lt hjm]
          omega
        simp only [Option.bind_eq_bind, Option.pure_def, Option.some_bind, hsrc,
          hpos, hmod, hdiv]
  obtain ⟨dnew, hcall, hval⟩ := kernel_call_correct
    [⟨0, [.iconst m, .iconst n], .Float⟩] [a] 1 [n, m]
    (kBody (.transpose m n)) (fun ss => (hostTranspose a).data (flatten [n, m] ss))
    (fun _ => some 0) hforall hbody
  refine ⟨⟨[n, m], .Float, dnew⟩, ?_, ?_⟩
  · rw [kernelRun_eq]
    simp only [kIns, kDims, inputDecls]
    rw [hcall]
    show (updB _ 1 _) 1 = _
    rw [updB_same]
  · intro is hvi
    exact hval is hvi

/-- The positional loop variables of a nest evaluate to the current index
tuple. -/
theorem evalIdxs_range_vars (fx : VEnv) (r : Nat) (ss : List Nat)
    (hlen : ss.length = r)
    (hpt : ∀ l, l < r → fx l = ((ss.getD l 0 : Nat) : ℚ)) :
    ((List.range r).map IdxE.ivar).mapM (evalIdx fx) = some ss := by
  refine mapM_some_of_forall₂ ?_
  rw [List.forall₂_map_left_iff]
  rw [List.forall₂_iff_get]
  refine ⟨by simp [hlen], ?_⟩
  intro l h1 h2
  have hlr : l < r := by simpa using h1
  show evalIdx fx (IdxE.ivar ((List.range r).get ⟨l, h1⟩)) = some (ss.get ⟨l, h2⟩)
  rw [evalIdx]
  simp only [List.get_eq_getElem, List.getElem_range]
  rw [hpt l hlr, toIdx_natCast]
  rw [List.getD_eq_getElem _ _ h2]

/-- The NaN-replacement case of the run/fallback agreement. -/
theorem c1aux_nanToNum (shape : List Nat) (a : Buf) (hsh : a.shape = shape)
    (hdt : a.dtype = Dtype.Float) :
    ∃ r1, kernelRun (.nanToNum shape) [a] = some r1 ∧
      ∀ is, validIdx shape is →
        r1.data (flatten shape is) = (hostNanToNum a).data (flatten shape is) := by
  have hforall : List.Forall₂ (fun (d : BufDecl) (b : Buf) =>
      b.dtype = d.dtype ∧ b.shape.length = d.shape.length)
      [⟨0, shape.map .iconst, .Float⟩] [a] := by
    exact List.Forall₂.cons ⟨hdt, by simp [hsh]⟩ List.Forall₂.nil
  have hbody : ∀ (fx : VEnv) (bx : BEnv),
      agreesOffB bx (bindTensors ([(⟨0, shape.map .iconst, .Float⟩ : BufDecl)].zip [a])
        emptyB) 1 →
      ∀ ss, validIdx shape ss → ss.length = shape.length →
      (∀ l, l < shape.length → fx l = ((ss.getD l 0 : Nat) : ℚ)) →
      evalExpr fx bx (kBody (.nanToNum shape) ((List.range shape.length).map IdxE.ivar))
        = some ((hostNanToNum a).data (flatten shape ss)) := by
    intro fx bx hbag ss _hv hlen hpt
    have hb0 : bx 0 = some a := by
      rw [hbag 0 (by decide)]
      show bindTensors [((⟨0, shape.map .iconst, .Float⟩ : BufDecl), a)] emptyB 0 = some a
      rw [bindTensors_cons, bindTensors_nil, updB_same]
    have hidx := evalIdxs_range_vars fx shape.length ss hlen hpt
    show evalExpr fx bx (.ifThenElse (.isnan (.load 0 _)) (.imm 0) (.load 0 _)) = _
    rw [evalExpr]
    rw [show evalExpr fx bx (.isnan (.load 0 ((List.range shape.length).map IdxE.ivar)))
        = some (visnan (a.data (flatten shape ss))) by
      rw [evalExpr, evalExpr, hb0, hidx]
      simp only [Option.bind_eq_bind, Option.pure_def, Option.some_bind, hsh]]
    rw [show evalExpr fx bx (.load 0 ((List.range shape.length).map IdxE.ivar))
        = some (a.data (flatten shape ss)) by
      rw [evalExpr, hb0, hidx]
      simp only [Option.bind_eq_bind, Option.pure_def, Option.some_bind, hsh]]
    rw [show evalExpr fx bx (.imm 0) = some (some 0) from rfl]
    simp only [Option.bind_eq_bind, Option.pure_def, Option.some_bind]
    show some (vselect (visnan (a.data (flatten shape ss))) (some 0)
      (a.data (flatten shape ss))) = _
    cases hv2 : a.data (flatten shape ss) with
    | none =>
        show some (vselect (some 1) (some 0) none) = some ((hostNanToNum a).data _)
        rw [show (hostNanToNum a).data (flatten shape ss)
            = match a.data (flatten shape ss) with
              | none => some 0
              | some x => some x from rfl]
        rw [hv2]
        rfl
    | some x =>
        show some (vselect (some 0) (some 0) (some x)) = some ((hostNanToNum a).data _)
        rw [show (hostNanToNum a).data (flatten shape ss)
            = match a.data (flatten shape ss) with
              | none => some 0
              | some x => some x from rfl]
        rw [hv2]
        rfl
  obtain ⟨dnew, hcall, hval⟩ := kernel_call_correct
    [⟨0, shape.map .iconst, .Float⟩] [a] 1 shape
    (kBody (.nanToNum shape)) (fun ss => (hostNanToNum a).data (flatten shape ss))
    (fun _ => some 0) hforall hbody
  refine ⟨⟨shape, .Float, dnew⟩, ?_, ?_⟩
  · rw [kernelRun_eq]
    simp only [kIns, kDims, inputDecls]
    rw [hcall]
    show (updB _ 1 _) 1 = _
    rw [updB_same]
  · intro is hvi
    exact hval is hvi

/-- A positional loop variable read from the variable tuple. -/
theorem range_vars_getD (r l : Nat) (hl : l < r) :
    ((List.range r).map IdxE.ivar).getD l (.iconst 0) = IdxE.ivar l := by
  rw [List.getD_eq_getElem _ _ (by simp [hl])]
  simp

/-- The permute case of the run/fallback agreement. -/
theorem c1aux_permute (shape perm : List Nat) (a : Buf) (hsh : a.shape = shape)
    (hdt : a.dtype = Dtype.Float) (hperm : List.Perm perm (List.range shape.length)) :
    ∃ r1, kernelRun (.permute shape perm) [a] = some r1 ∧
      ∀ is, validIdx (perm.map (fun j => shape.getD j 0)) is →
        r1.data (flatten (perm.map (fun j => shape.getD j 0)) is)
          = (hostPermute a perm).data (flatten (perm.map (fun j => shape.getD j 0)) is) := by
  have hpl : perm.length = shape.length := by
    have := hperm.length_eq
    simpa using this
  have houtlen : (perm.map (fun j => shape.getD j 0)).length = shape.length := by
    simp [hpl]
  have hidxlt : ∀ q, q < shape.length → perm.indexOf q < shape.length := by
    intro q hq
    have hqmem : q ∈ perm := by
      rw [hperm.mem_iff]
      exact List.mem_range.mpr hq
    have := List.indexOf_lt_length.mpr hqmem
    rw [hpl] at this
    exact this
  have hforall : List.Forall₂ (fun (d : BufDecl) (b : Buf) =>
      b.dtype = d.dtype ∧ b.shape.length = d.shape.length)
      [⟨0, shape.map .iconst, .Float⟩] [a] := by
    exact List.Forall₂.cons ⟨hdt, by simp [hsh]⟩ List.Forall₂.nil
  have hbody : ∀ (fx : VEnv) (bx : BEnv),
      agreesOffB bx (bindTensors ([(⟨0, shape.map .iconst, .Float⟩ : BufDecl)].zip [a])
        emptyB) 1 →
      ∀ ss, validIdx (perm.map (fun j => shape.getD j 0)) ss →
      ss.length = (perm.map (fun j => shape.getD j 0)).length →
      (∀ l, l < (perm.map (fun j => shape.getD j 0)).length →
        fx l = ((ss.getD l 0 : Nat) : ℚ)) →
      evalExpr fx bx (kBody (.permute shape perm)
        ((List.range (perm.map (fun j => shape.getD j 0)).length).map IdxE.ivar))
        = some ((hostPermute a perm).data
            (flatten (perm.map (fun j => shape.getD j 0)) ss)) := by
    intro fx bx hbag ss hv hlen hpt
    have hb0 : bx 0 = some a := by
      rw [hbag 0 (by decide)]
      show bindTensors [((⟨0, shape.map .iconst, .Float⟩ : BufDecl), a)] emptyB 0 = some a
      rw [bindTensors_cons, bindTensors_nil, updB_same]
    show evalExpr fx bx (.load 0 ((List.range shape.length).map (fun q =>
        (((List.range (perm.map (fun j => shape.getD j 0)).length).map IdxE.ivar).getD
          (perm.indexOf q) (.iconst 0))))) = _
    have hcong : (List.range shape.length).map (fun q =>
        (((List.range (perm.map (fun j => shape.getD j 0)).length).map IdxE.ivar).getD
          (perm.indexOf q) (.iconst 0)))
        = (List.range shape.length).map (fun q => IdxE.ivar (perm.indexOf q)) := by
      refine List.map_congr_left ?_
      intro q hq
      have hq2 : q < shape.length := List.mem_range.mp hq
      rw [houtlen]
      exact range_vars_getD _ _ (hidxlt q hq2)
    rw [hcong]
    have hidx : ((List.range shape.length).map (fun q => IdxE.ivar (perm.indexOf q))).mapM
        (evalIdx fx)
        = some ((List.range shape.length).map (fun q => ss.getD (perm.indexOf q) 0)) := by
      refine mapM_some_of_forall₂ ?_
      rw [List.forall₂_map_left_iff, List.forall₂_map_right_iff]
      rw [List.forall₂_same]
      intro q hq
      have hq2 : q < shape.length := List.mem_range.mp hq
      show evalIdx fx (IdxE.ivar (perm.indexOf q)) = some (ss.getD (perm.indexOf q) 0)
      rw [evalIdx]
      rw [hpt (perm.indexOf q) (by rw [houtlen]; exact hidxlt q hq2), toIdx_natCast]
    rw [evalExpr, hb0, hidx]
    simp only [Option.bind_eq_bind, Option.pure_def, Option.some_bind]
    simp only [hostPermute]
    rw [hsh]
    rw [unflatten_flatten hv]
  obtain ⟨dnew, hcall, hval⟩ := kernel_call_correct
    [⟨0, shape.map .iconst, .Float⟩] [a] 1 (perm.map (fun j => shape.getD j 0))
    (kBody (.permute shape perm))
    (fun ss => (hostPermute a perm).data (flatten (perm.map (fun j => shape.getD j 0)) ss))
    (fun _ => some 0) hforall hbody
  refine ⟨⟨perm.map (fun j => shape.getD j 0), .Float, dnew⟩, ?_, ?_⟩
  · rw [kernelRun_eq]
    simp only [kIns, kDims, inputDecls]
    rw [hcall]
    show (updB _ 1 _) 1 = _
    rw [updB_same]
  · intro is hvi
    exact hval is hvi

/-- The broadcasting-expand case of the run/fallback agreement. -/
theorem c1aux_expand (shape sizes : List Nat) (a : Buf) (hsh : a.shape = shape)
    (hdt : a.dtype = Dtype.Float) (hlen2 : shape.length = sizes.length) :
    ∃ r1, kernelRun (.expand shape sizes) [a] = some r1 ∧
      ∀ is, validIdx sizes is →
        r1.data (flatten sizes is) = (hostExpand a sizes).data (flatten sizes is) := by
  have hforall : List.Forall₂ (fun (d : BufDecl) (b : Buf) =>
      b.dtype = d.dtype ∧ b.shape.length = d.shape.length)
      [⟨0, shape.map .iconst, .Float⟩] [a] := by
    exact List.Forall₂.cons ⟨hdt, by simp [hsh]⟩ List.Forall₂.nil
  have hbody : ∀ (fx : VEnv) (bx : BEnv),
      agreesOffB bx (bindTensors ([(⟨0, shape.map .iconst, .Float⟩ : BufDecl)].zip [a])
        emptyB) 1 →
      ∀ ss, validIdx sizes ss → ss.length = sizes.length →
      (∀ l, l < sizes.length → fx l = ((ss.getD l 0 : Nat) : ℚ)) →
      evalExpr fx bx (kBody (.expand shape sizes)
        ((List.range sizes.length).map IdxE.ivar))
        = some ((hostExpand a sizes).data (flatten sizes ss)) := by
    intro fx bx hbag ss hv _hlen hpt
    have hb0 : bx 0 = some a := by
      rw [hbag 0 (by decide)]
      show bindTensors [((⟨0, shape.map .iconst, .Float⟩ : BufDecl), a)] emptyB 0 = some a
      rw [bindTensors_cons, bindTensors_nil, updB_same]
    show evalExpr fx bx (.load 0 ((List.range shape.length).map (fun q =>
        if shape.getD q 0 = 1 then IdxE.iconst 0
        else ((List.range sizes.length).map IdxE.ivar).getD q (.iconst 0)))) = _
    have hcong : (List.range shape.length).map (fun q =>
        if shape.getD q 0 = 1 then IdxE.iconst 0
        else ((List.range sizes.length).map IdxE.ivar).getD q (.iconst 0))
        = (List.range shape.length).map (fun q =>
            if shape.getD q 0 = 1 then IdxE.iconst 0 else IdxE.ivar q) := by
      refine List.map_congr_left ?_
      intro q hq
      have hq2 : q < shape.length := List.mem_range.mp hq
      by_cases hc : shape.getD q 0 = 1
      · rw [if_pos hc, if_pos hc]
      · rw [if_neg hc, if_neg hc, range_vars_getD _ _ (hlen2 ▸ hq2)]
    rw [hcong]
    have hidx : ((List.range shape.length).map (fun q =>
        if shape.getD q 0 = 1 then IdxE.iconst 0 else IdxE.ivar q)).mapM (evalIdx fx)
        = some ((List.range shape.length).map (fun q =>
            if shape.getD q 0 = 1 then 0 else ss.getD q 0)) := by
      refine mapM_some_of_forall₂ ?_
      rw [List.forall₂_map_left_iff, List.forall₂_map_right_iff]
      rw [List.forall₂_same]
      intro q hq
      have hq2 : q < shape.length := List.mem_range.mp hq
      by_cases hc : shape.getD q 0 = 1
      · rw [if_pos hc, if_pos hc]
        rfl
      · rw [if_neg hc, if_neg hc]
        show evalIdx fx (IdxE.ivar q) = some (ss.getD q 0)
        rw [evalIdx, hpt q (hlen2 ▸ hq2), toIdx_natCast]
    rw [evalExpr, hb0, hidx]
    simp only [Option.bind_eq_bind, Option.pure_def, Option.some_bind]
    simp only [hostExpand]
    rw [hsh]
    rw [unflatten_flatten hv]
  obtain ⟨dnew, hcall, hval⟩ := kernel_call_correct
    [⟨0, shape.map .iconst, .Float⟩] [a] 1 sizes
    (kBody (.expand shape sizes))
    (fun ss => (hostExpand a sizes).data (flatten sizes ss))
    (fun _ => some 0) hforall hbody
  refine ⟨⟨sizes, .Float, dnew⟩, ?_, ?_⟩
  · rw [kernelRun_eq]
    simp only [kIns, kDims, inputDecls]
    rw [hcall]
    show (updB _ 1 _) 1 = _
    rw [updB_same]
  · intro is hvi
    exact hval is hvi

/-- Evaluating a chain of adds equals the host's sequential add chain. -/
theorem chainExpr_eval (shape : List Nat) (ins : List Buf) (fx : VEnv) (bx : BEnv)
    (ss : List Nat)
    (hidx : ((List.range shape.length).map IdxE.ivar).mapM (evalIdx fx) = some ss) :
    ∀ j, (∀ j2, j2 ≤ j → bx j2 = some (ins.getD j2 dfltBuf) ∧
        (ins.getD j2 dfltBuf).shape = shape) →
      evalExpr fx bx (chainExpr j ((List.range shape.length).map IdxE.ivar))
        = some ((hostAddN j ins).data (flatten shape ss)) := by
  intro j
  induction j with
  | zero =>
      intro hlook
      obtain ⟨hb, hs⟩ := hlook 0 (Nat.le_refl 0)
      rw [chainExpr, evalExpr, hb, hidx]
      simp only [Option.bind_eq_bind, Option.pure_def, Option.some_bind, hs]
      rfl
  | succ j ih =>
      intro hlook
      have ihv := ih (fun j2 hj2 => hlook j2 (Nat.le_succ_of_le hj2))
      obtain ⟨hb, hs⟩ := hlook (j + 1) (Nat.le_refl _)
      rw [chainExpr, evalExpr, ihv]
      rw [show evalExpr fx bx (.load (j + 1) ((List.range shape.length).map IdxE.ivar))
          = some ((ins.getD (j + 1) dfltBuf).data (flatten shape ss)) by
        rw [evalExpr, hb, hidx]
        simp only [Option.bind_eq_bind, Option.pure_def, Option.some_bind, hs]]
      rfl

/-- The add-chain case of the run/fallback agreement. -/
theorem c1aux_addChain (shape : List Nat) (k : Nat) (ins : List Buf)
    (hk : 0 < k) (hlen : ins.length = k)
    (hall : ∀ b ∈ ins, b.shape = shape ∧ b.dtype = Dtype.Float) :
    ∃ r1, kernelRun (.addChain shape k) ins = some r1 ∧
      ∀ is, validIdx shape is →
        r1.data (flatten shape is) = (hostAddN (k - 1) ins).data (flatten shape is) := by
  have hdlen : ((List.range k).map (fun j =>
      (⟨j, shape.map .iconst, .Float⟩ : BufDecl))).length = k := by simp
  have hforall : List.Forall₂ (fun (d : BufDecl) (b : Buf) =>
      b.dtype = d.dtype ∧ b.shape.length = d.shape.length)
      ((List.range k).map (fun j => (⟨j, shape.map .iconst, .Float⟩ : BufDecl))) ins := by
    rw [List.forall₂_iff_get]
    refine ⟨by simp [hlen], ?_⟩
    intro l h1 h2
    have hmem : ins[l] ∈ ins := List.getElem_mem _
    obtain ⟨hs, hd⟩ := hall _ hmem
    simp only [List.get_eq_getElem, List.getElem_map, List.getElem_range]
    exact ⟨hd, by simp [hs]⟩
  have hnames : ((((List.range k).map (fun j =>
      (⟨j, shape.map .iconst, .Float⟩ : BufDecl))).zip ins).map
        (fun q => q.1.name)) = List.range k := by
    rw [show (fun (q : BufDecl × Buf) => q.1.name)
        = (fun (d : BufDecl) => d.name) ∘ Prod.fst from rfl]
    rw [← List.map_map, List.map_fst_zip _ _ (by simp [hlen])]
    rw [List.map_map]
    rw [show ((fun (d : BufDecl) => d.name) ∘ fun j =>
        (⟨j, shape.map .iconst, .Float⟩ : BufDecl)) = id from rfl, List.map_id]
  have hlook : ∀ j, j < k →
      bindTensors ((((List.range k).map (fun j =>
        (⟨j, shape.map .iconst, .Float⟩ : BufDecl))).zip ins)) emptyB j
        = some (ins.getD j dfltBuf) := by
    intro j hj
    have hjz : j < ((((List.range k).map (fun j =>
        (⟨j, shape.map .iconst, .Float⟩ : BufDecl))).zip ins)).length := by
      simp [hlen]
      omega
    have hmem := List.get_mem ((((List.range k).map (fun j =>
      (⟨j, shape.map .iconst, .Float⟩ : BufDecl))).zip ins)) j hjz
    have hget : ((((List.range k).map (fun j =>
        (⟨j, shape.map .iconst, .Float⟩ : BufDecl))).zip ins)).get ⟨j, hjz⟩
        = ((⟨j, shape.map .iconst, .Float⟩ : BufDecl), ins.getD j dfltBuf) := by
      rw [List.getD_eq_getElem _ _ (by rw [hlen]; exact hj)]
      simp [List.getElem_zip]
    have hbt := bindTensors_get _ emptyB _ (by rw [hnames]; exact List.nodup_range _) hmem
    rw [hget] at hbt
    exact hbt
  have hbody : ∀ (fx : VEnv) (bx : BEnv),
      agreesOffB bx (bindTensors ((((List.range k).map (fun j =>
        (⟨j, shape.map .iconst, .Float⟩ : BufDecl))).zip ins)) emptyB) k →
      ∀ ss, validIdx shape ss → ss.length = shape.length →
      (∀ l, l < shape.length → fx l = ((ss.getD l 0 : Nat) : ℚ)) →
      evalExpr fx bx (kBody (.addChain shape k) ((List.range shape.length).map IdxE.ivar))
        = some ((hostAddN (k - 1) ins).data (flatten shape ss)) := by
    intro fx bx hbag ss _hv hlen3 hpt
    have hidx := evalIdxs_range_vars fx shape.length ss hlen3 hpt
    show evalExpr fx bx (chainExpr (k - 1) ((List.range shape.length).map IdxE.ivar)) = _
    refine chainExpr_eval shape ins fx bx ss hidx (k - 1) ?_
    intro j2 hj2
    have hj2k : j2 < k := by omega
    have hgd : ins.getD j2 dfltBuf ∈ ins := by
      rw [List.getD_eq_getElem _ _ (by rw [hlen]; exact hj2k)]
      exact List.getElem_mem _
    constructor
    · rw [hbag j2 (by omega)]
      exact hlook j2 hj2k
    · exact (hall _ hgd).1
  obtain ⟨dnew, hcall, hval⟩ := kernel_call_correct
    ((List.range k).map (fun j => (⟨j, shape.map .iconst, .Float⟩ : BufDecl))) ins k shape
    (kBody (.addChain shape k))
    (fun ss => (hostAddN (k - 1) ins).data (flatten shape ss))
    (fun _ => some 0) hforall hbody
  refine ⟨⟨shape, .Float, dnew⟩, ?_, ?_⟩
  · rw [kernelRun_eq]
    simp only [kIns, kDims, inputDecls]
    rw [hcall]
    show (updB _ k _) k = _
    rw [updB_same]
  · intro is hvi
    exact hval is hvi

/-- C1: for every covered graph shape (elementwise add chain, transpose,
permute, broadcasting expand, custom-lowered NaN replacement) and every
well-formed input tuple, the compiled `run` path and the host-dispatch
`fallback` path both succeed and agree within the fixed tolerance
(atol 2e-3) at every valid output position; in this exact-arithmetic
model they agree exactly. -/
theorem c1_run_fallback_agree (g : CoveredGraph) (ins : List Buf)
    (h : wfInputs g ins = true) :
    ∃ r1, kernelRun g ins = some r1 ∧
    ∃ r2, kernelFallback g ins = some r2 ∧
    ∀ is, validIdx (kDims g) is →
      closeVal (r1.data (flatten (kDims g) is)) (r2.data (flatten (kDims g) is)) := by
  cases g with
  | addChain shape k =>
      simp only [wfInputs, Bool.and_eq_true, decide_eq_true_eq, List.all_eq_true] at h
      obtain ⟨⟨hlen, hk⟩, hall⟩ := h
      have hall2 : ∀ b ∈ ins, b.shape = shape ∧ b.dtype = Dtype.Float := by
        intro b hb
        have := hall b hb
        simpa using this
      obtain ⟨r1, hrun, hcmp⟩ := c1aux_addChain shape k ins hk hlen hall2
      refine ⟨r1, hrun, hostAddN (k - 1) ins, ?_, ?_⟩
      · rw [kernelFallback, if_pos ⟨hlen, hk⟩]
      · intro is hvi
        simp only [kDims] at hvi ⊢
        rw [hcmp is hvi]
        exact closeVal_refl _
  | transpose m n =>
      cases ins with
      | nil => simp [wfInputs] at h
      | cons a tl =>
          cases tl with
          | cons b tl2 => simp [wfInputs] at h
          | nil =>
              simp only [wfInputs, Bool.and_eq_true, decide_eq_true_eq] at h
              obtain ⟨hsh, hdt⟩ := h
              obtain ⟨r1, hrun, hcmp⟩ := c1aux_transpose m n a hsh hdt
              refine ⟨r1, hrun, hostTranspose a, rfl, ?_⟩
              intro is hvi
              simp only [kDims] at hvi ⊢
              rw [hcmp is hvi]
              exact closeVal_refl _
  | permute shape perm =>
      cases ins with
      | nil => simp [wfInputs] at h
      | cons a tl =>
          cases tl with
          | cons b tl2 => simp [wfInputs] at h
          | nil =>
              simp only [wfInputs, Bool.and_eq_true, decide_eq_true_eq] at h
              obtain ⟨⟨hsh, hdt⟩, hperm⟩ := h
              obtain ⟨r1, hrun, hcmp⟩ := c1aux_permute shape perm a hsh hdt hperm
              refine ⟨r1, hrun, hostPermute a perm, rfl, ?_⟩
              intro is hvi
              simp only [kDims] at hvi ⊢
              rw [hcmp is hvi]
              exact closeVal_refl _
  | expand shape sizes =>
      cases ins with
      | nil => simp [wfInputs] at h
      | cons a tl =>
          cases tl with
          | cons b tl2 => simp [wfInputs] at h
          | nil =>
              simp only [wfInputs, Bool.and_eq_true, decide_eq_true_eq] at h
              obtain ⟨⟨⟨hsh, hdt⟩, hlen2⟩, _hbc⟩ := h
              obtain ⟨r1, hrun, hcmp⟩ := c1aux_expand shape sizes a hsh hdt hlen2
              refine ⟨r1, hrun, hostExpand a sizes, rfl, ?_⟩
              intro is hvi
              simp only [kDims] at hvi ⊢
              rw [hcmp is hvi]
              exact closeVal_refl _
  | nanToNum shape =>
      cases ins with
      | nil => simp [wfInputs] at h
      | cons a tl =>
          cases tl with
          | cons b tl2 => simp [wfInputs] at h
          | nil =>
              simp only [wfInputs, Bool.and_eq_true, decide_eq_true_eq] at h
              obtain ⟨hsh, hdt⟩ := h
              obtain ⟨r1, hrun, hcmp⟩ := c1aux_nanToNum shape a hsh hdt
              refine ⟨r1, hrun, hostNanToNum a, rfl, ?_⟩
              intro is hvi
              simp only [kDims] at hvi ⊢
              rw [hcmp is hvi]
              exact closeVal_refl _

/-- Witness for C1: the NaN-replacement graph on a concrete 2-by-2 input
containing NaNs, as in the harness. -/
theorem c1_run_fallback_agree_witness :
    wfInputs (.nanToNum [2, 2])
      [⟨[2, 2], .Float, fun p => if p = 0 then none else some 1⟩] = true ∧
    (∃ r1, kernelRun (.nanToNum [2, 2])
        [⟨[2, 2], .Float, fun p => if p = 0 then none else some 1⟩] = some r1 ∧
     ∃ r2, kernelFallback (.nanToNum [2, 2])
        [⟨[2, 2], .Float, fun p => if p = 0 then none else some 1⟩] = some r2 ∧
     ∀ is, validIdx (kDims (.nanToNum [2, 2])) is →
       closeVal (r1.data (flatten (kDims (.nanToNum [2, 2])) is))
         (r2.data (flatten (kDims (.nanToNum [2, 2])) is))) := by
  have hwf : wfInputs (.nanToNum [2, 2])
      [⟨[2, 2], .Float, fun p => if p = 0 then none else some 1⟩] = true := by decide
  exact ⟨hwf, c1_run_fallback_agree _ _ hwf⟩

/-- Kernel construction succeeds on a fully annotated, fully supported
graph. -/
theorem mkTensorExprKernel_ok (g2 : JitGraph)
    (h1 : (g2.inputs.any (fun i => i.ty.isNone)) = false)
    (h2 : (g2.inputs.any (fun i => decide (i.kind = .moduleSelf))) = false) :
    mkTensorExprKernel g2 = .ok ⟨g2⟩ := by
  rw [mkTensorExprKernel, if_neg (by rw [h1]; exact Bool.false_ne_true),
    if_neg (by rw [h2]; exact Bool.false_ne_true)]

/-- C2: constructing a kernel over a graph whose inputs carry no shape
metadata raises a shape-inference error; after annotating the inputs with
example-tensor shapes, construction over the annotated graph succeeds. -/
theorem c2_shape_inference_then_annotate (g : JitGraph) (exs : List Tensor)
    (hne : g.inputs ≠ [])
    (hnone : ∀ i ∈ g.inputs, i.ty = none)
    (htensor : ∀ i ∈ g.inputs, i.kind = InputKind.tensorParam)
    (hlen : exs.length = g.inputs.length) :
    mkTensorExprKernel g = .error .shapeInference ∧
    ∃ g2, annotateInputShapes g exs = .ok g2 ∧
      ∃ kk, mkTensorExprKernel g2 = .ok kk := by
  constructor
  · rw [mkTensorExprKernel, if_pos]
    rw [List.any_eq_true]
    cases hg : g.inputs with
    | nil => exact absurd hg hne
    | cons i0 tl =>
        refine ⟨i0, List.mem_cons_self _ _, ?_⟩
        rw [hnone i0 (by rw [hg]; exact List.mem_cons_self _ _)]
        rfl
  · have hnoself : (g.inputs.any (fun i => decide (i.kind = .moduleSelf))) = false := by
      rw [List.any_eq_false]
      intro i hi
      rw [htensor i hi]
      simp
    have hnonone : (((g.inputs.zip exs).map (fun pr =>
        (⟨pr.1.kind, some (pr.2.shape, pr.2.dtype)⟩ : GraphInput))).any
        (fun i => i.ty.isNone)) = false := by
      rw [List.any_eq_false]
      intro i hi
      rw [List.mem_map] at hi
      obtain ⟨pr, _hpr, hieq⟩ := hi
      rw [← hieq]
      simp
    have hnoself2 : (((g.inputs.zip exs).map (fun pr =>
        (⟨pr.1.kind, some (pr.2.shape, pr.2.dtype)⟩ : GraphInput))).any
        (fun i => decide (i.kind = .moduleSelf))) = false := by
      rw [List.any_eq_false]
      intro i hi
      rw [List.mem_map] at hi
      obtain ⟨pr, hpr, hieq⟩ := hi
      have hk := htensor pr.1 (List.of_mem_zip hpr).1
      rw [← hieq]
      show ¬(decide (pr.1.kind = InputKind.moduleSelf) = true)
      rw [hk]
      simp
    refine ⟨⟨(g.inputs.zip exs).map
      (fun pr => ⟨pr.1.kind, some (pr.2.shape, pr.2.dtype)⟩)⟩, ?_, ?_⟩
    · rw [annotateInputShapes, if_neg (by rw [hlen]; exact fun hc => hc rfl),
        if_neg (by rw [hnoself]; exact Bool.false_ne_true)]
    · exact ⟨_, mkTensorExprKernel_ok _ hnonone hnoself2⟩

/-- Witness for C2: a two-input unannotated graph, annotated from two
example tensors. -/
theorem c2_shape_inference_then_annotate_witness :
    ((JitGraph.mk [⟨.tensorParam, none⟩, ⟨.tensorParam, none⟩]).inputs ≠ [] ∧
      (∀ i ∈ (JitGraph.mk [⟨.tensorParam, none⟩, ⟨.tensorParam, none⟩]).inputs,
        i.ty = none) ∧
      (∀ i ∈ (JitGraph.mk [⟨.tensorParam, none⟩, ⟨.tensorParam, none⟩]).inputs,
        i.kind = InputKind.tensorParam) ∧
      ([⟨[4, 4], Dtype.Float, fun _ => some 0⟩,
        ⟨[4, 4], Dtype.Float, fun _ => some 0⟩] : List Tensor).length
        = (JitGraph.mk [⟨.tensorParam, none⟩, ⟨.tensorParam, none⟩]).inputs.length) ∧
    (mkTensorExprKernel (JitGraph.mk [⟨.tensorParam, none⟩, ⟨.tensorParam, none⟩])
        = .error .shapeInference ∧
      ∃ g2, annotateInputShapes (JitGraph.mk [⟨.tensorParam, none⟩, ⟨.tensorParam, none⟩])
          [⟨[4, 4], Dtype.Float, fun _ => some 0⟩, ⟨[4, 4], Dtype.Float, fun _ => some 0⟩]
          = .ok g2 ∧
        ∃ kk, mkTensorExprKernel g2 = .ok kk) := by
  refine ⟨⟨by decide, by decide, by decide, by decide⟩, ?_⟩
  exact c2_shape_inference_then_annotate _ _ (by decide) (by decide) (by decide) (by decide)

/-- C7: fusing the traced functional-linear pattern (with or without a
bias add) produces a single aten::linear node whose source-location
metadata equals the source location of the original matmul node, with no
matmul, transpose or in-place-add node remaining. -/
theorem c7_fuse_linear_provenance (rt rm ra : Nat) (bias : Bool) :
    fuseLinear (if bias then
        [⟨"aten::t", rt⟩, ⟨"aten::matmul", rm⟩, ⟨"aten::add_", ra⟩]
      else [⟨"aten::t", rt⟩, ⟨"aten::matmul", rm⟩])
      = [⟨"aten::linear", rm⟩] := by
  cases bias <;> simp [fuseLinear]

/-- C10: a bare matmul node (not part of the functional-linear pattern) is
left untouched by the linear-fusion pass — its kind stays aten::matmul and
no aten::linear node is introduced — and the rewritten model still runs on
the original rank-3 inputs. -/
theorem c10_unmatched_matmul_untouched (rm : Nat) :
    fuseLinear [⟨"aten::matmul", rm⟩] = [⟨"aten::matmul", rm⟩] ∧
    "aten::linear" ∉ (fuseLinear [⟨"aten::matmul", rm⟩]).map (fun nd => nd.kind) ∧
    graphRuns (fuseLinear [⟨"aten::matmul", rm⟩]) [5, 6, 5] [5, 5, 100] = true := by
  have h1 : fuseLinear [⟨"aten::matmul", rm⟩] = [⟨"aten::matmul", rm⟩] := by
    simp [fuseLinear]
  refine ⟨h1, ?_, ?_⟩
  · rw [h1]
    simp
  · rw [h1]
    rw [graphRuns]
    simp [matmulOutShape]

/-- C8: allocating an IR handle while no kernel-arena scope is active
always raises the no-active-scope error and never returns a handle. -/
theorem c8_no_arena_allocation_fails (nm : String) (dt : Dtype) :
    mkVarHandle ⟨false⟩ nm dt = .error .noActiveScope := by
  rw [mkVarHandle]
  rfl

/-- C9: constructing a Placeholder with an invalid dtype name (such as
"float55") raises a type error at the point of construction, while
construction with a valid dtype, a valid dtype name, or the dtype omitted
succeeds. -/
theorem c9_placeholder_dtype_validation (dims : List IdxE) (d : Dtype) :
    mkPlaceholder dims (.fromString "float55") = .error .typeError ∧
    (∃ p, mkPlaceholder dims (.given d) = .ok p) ∧
    (∃ p, mkPlaceholder dims .omitted = .ok p) ∧
    (∃ p, mkPlaceholder dims (.fromString "float32") = .ok p) := by
  refine ⟨?_, ⟨_, rfl⟩, ⟨_, rfl⟩, ?_⟩
  · rw [mkPlaceholder]
    rw [show parseDtype "float55" = none by rw [parseDtype]; rfl]
  · refine ⟨⟨0, dims, .Float⟩, ?_⟩
    rw [mkPlaceholder]
    rw [show parseDtype "float32" = some .Float by rw [parseDtype]; rfl]

end TE
